import Mathlib

/-!
A verification development for a discrete-event simulation of the dining
philosophers problem (`dining_philosophers.py`).

The simulation is embedded shallowly:

* simulated time and rates are rationals (the Python code uses floats; no
  claim under study depends on rounding);
* the process-wide random generator is an explicit draw source
  `expo : ℚ → Nat → ℚ`, where `expo r k` stands for the value returned by
  the `k`-th call of `random.expovariate` in program order when that call
  receives rate argument `r`; hypotheses `0 < expo r k` (or `0 ≤ expo r k`)
  record that exponential variates are positive (nonnegative);
* the `Philosopher`/`Chopstick` object graph is an index-based arena: a
  philosopher stores the indices of its two chopsticks, and the state
  carries one function for the philosopher array and one for the chopstick
  array;
* a `Chopstick` additionally carries, as ghost data refining the source's
  single `is_free : bool` field, the index of the philosopher that last
  picked it up (`holder = none` iff `is_free`); every executable code path
  consults only `is_free`, so the ghost data never influences behaviour;
* the driver additionally accumulates, as ghost data, a trace of all
  dispatched events (philosopher index, time, event type, the
  philosopher's `started_at` before dispatch, and whether both chopsticks
  were free), used to state temporal properties; the trace never
  influences behaviour;
* `heapq` is modelled as a list together with `popEarliest`, which removes
  an element of minimal `time` (the first such element; `Event.__lt__`
  compares only times, so the tie order among equal timestamps is
  implementation-defined in the source);
* the unbounded `while` loop of `Simulation.run` is modelled with explicit
  fuel; `runFuel` fails with `outOfFuel` when the fuel is exhausted before
  the horizon is reached, and with `emptyHeap` when `heappop` is applied
  to an empty list (an `IndexError` in Python);
* the seeding loop of `Simulation.run` (which calls `request(0)` on the
  philosophers in index order and pushes each produced event) is modelled
  by starting from a queue holding one `REQUEST` event at time `0` per
  philosopher and taking `n` dispatch steps: `popEarliest` pops these
  `n` zero-time events in index order, and for nonnegative draws every
  follow-up event has time `≥ 0`, so these `n` steps perform exactly the
  source's seeding calls in the source's order.
-/

namespace DiningPhilosophers

/-- Pointwise update of a function out of `Nat`, used for the philosopher
and chopstick arenas. -/
def upd {α : Type} (f : Nat → α) (i : Nat) (x : α) : Nat → α :=
  fun j => if j = i then x else f j

@[simp] theorem upd_same {α : Type} (f : Nat → α) (i : Nat) (x : α) :
    upd f i x i = x := by
  simp [upd]

@[simp] theorem upd_other {α : Type} (f : Nat → α) (i j : Nat) (x : α)
    (h : j ≠ i) : upd f i x j = f j := by
  simp [upd, h]

/-- Source `class EventTypes(IntEnum)`: the two event kinds. -/
inductive EventTypes where
  | REQUEST
  | FINISH
deriving DecidableEq, Repr

/-- Source `class Chopstick`: the source stores only `is_free : bool`; `holder`
is ghost data refining it (`is_free` iff `holder = none`), recording which
philosopher last picked the chopstick up.  All executable code paths
consult only `is_free`. -/
structure Chopstick where
  holder : Option Nat
deriving DecidableEq, Repr

/-- Source `Chopstick.__init__`: a chopstick starts free. -/
def Chopstick.init : Chopstick := ⟨none⟩

/-- Source `Chopstick.is_free` (the source stores this boolean directly). -/
def Chopstick.is_free (c : Chopstick) : Bool := c.holder.isNone

/-- Source `Chopstick.pick_up`, performed by philosopher `i`: sets
`is_free = False` (and records `i` as ghost holder). -/
def Chopstick.pick_up (_c : Chopstick) (i : Nat) : Chopstick := ⟨some i⟩

/-- Source `Chopstick.put_down`: sets `is_free = True`. -/
def Chopstick.put_down (_c : Chopstick) : Chopstick := ⟨none⟩

/-- Source `class Philosopher`: per-actor state.  `left_chopstick` and
`right_chopstick` are indices into the chopstick arena (the source stores
object references). -/
structure Philosopher where
  mi : ℚ
  lambda_i : ℚ
  left_chopstick : Nat
  right_chopstick : Nat
  failed_attempts : Nat
  eating_time : ℚ
  started_at : ℚ
  requests : List ℚ
deriving DecidableEq, Repr

instance : Inhabited Philosopher := ⟨⟨0, 0, 0, 0, 0, 0, 0, []⟩⟩

/-- Source `class Event`: the source stores a philosopher reference; here the
philosopher's index. -/
structure Event where
  philosopher : Nat
  time : ℚ
  etype : EventTypes
deriving DecidableEq, Repr

/-- Errors of the fueled run loop: `emptyHeap` models `heapq.heappop` on
an empty list (`IndexError`); `outOfFuel` marks fuel exhaustion of the
embedding before the horizon was reached. -/
inductive RunError where
  | emptyHeap
  | outOfFuel
deriving DecidableEq, Repr

/-- Ghost trace entry for one dispatched event: the philosopher index,
the event's time and type, the philosopher's `started_at` before the
handler ran, and whether both its chopsticks were free at dispatch. -/
structure TraceEntry where
  philosopher : Nat
  time : ℚ
  etype : EventTypes
  started : ℚ
  ok : Bool
deriving DecidableEq, Repr

/-- The full simulation state: horizon `T`, the running clock `time` of
`Simulation.run`, the number of philosophers, the two arenas, the pending
event list (`self.events`), the index `rnd` of the next `expovariate`
call in program order, and the ghost trace. -/
structure SimState where
  T : ℚ
  time : ℚ
  nphils : Nat
  philosophers : Nat → Philosopher
  chopsticks : Nat → Chopstick
  events : List Event
  rnd : Nat
  trace : List TraceEntry

instance : Inhabited SimState :=
  ⟨⟨0, 0, 0, fun _ => default, fun _ => Chopstick.init, [], 0, []⟩⟩

/-- Source `Philosopher.request(self, time)`: append `time` to `self.requests`;
if both chopsticks are free, pick both up, set `started_at`, and return a
`FINISH` event delayed by `expovariate(self.mi)`; otherwise increment
`failed_attempts` and return a `REQUEST` event delayed by
`expovariate(self.lambda_i)`. -/
def request (expo : ℚ → Nat → ℚ) (s : SimState) (i : Nat) (t : ℚ) :
    SimState × Event :=
  let p := s.philosophers i
  let p := { p with requests := p.requests ++ [t] }
  if (s.chopsticks p.left_chopstick).is_free &&
      (s.chopsticks p.right_chopstick).is_free then
    let chops := upd s.chopsticks p.left_chopstick
      ((s.chopsticks p.left_chopstick).pick_up i)
    let chops := upd chops p.right_chopstick
      ((chops p.right_chopstick).pick_up i)
    ({ s with
        philosophers := upd s.philosophers i { p with started_at := t },
        chopsticks := chops,
        rnd := s.rnd + 1 },
     ⟨i, t + expo p.mi s.rnd, .FINISH⟩)
  else
    ({ s with
        philosophers := upd s.philosophers i
          { p with failed_attempts := p.failed_attempts + 1 },
        rnd := s.rnd + 1 },
     ⟨i, t + expo p.lambda_i s.rnd, .REQUEST⟩)

/-- Source `Philosopher.finish(self, time)`: put both chopsticks down, add
`time - self.started_at` to `eating_time`, and return a `REQUEST` event
delayed by `expovariate(self.lambda_i)`. -/
def finish (expo : ℚ → Nat → ℚ) (s : SimState) (i : Nat) (t : ℚ) :
    SimState × Event :=
  let p := s.philosophers i
  let chops := upd s.chopsticks p.left_chopstick
    ((s.chopsticks p.left_chopstick).put_down)
  let chops := upd chops p.right_chopstick ((chops p.right_chopstick).put_down)
  ({ s with
      philosophers := upd s.philosophers i
        { p with eating_time := p.eating_time + (t - p.started_at) },
      chopsticks := chops,
      rnd := s.rnd + 1 },
   ⟨i, t + expo p.lambda_i s.rnd, .REQUEST⟩)

/-- The event dispatch of the loop body of `Simulation.run`: a `REQUEST`
event goes to the philosopher's `request` handler, a `FINISH` event to
its `finish` handler. -/
def dispatch (expo : ℚ → Nat → ℚ) (s : SimState) (e : Event) :
    SimState × Event :=
  match e.etype with
  | .REQUEST => request expo s e.philosopher e.time
  | .FINISH => finish expo s e.philosopher e.time

/-- The condition `self.left_chopstick.is_free and
self.right_chopstick.is_free` tested by philosopher `i`'s `request`
handler, read off a state. -/
def bothFree (s : SimState) (i : Nat) : Bool :=
  (s.chopsticks (s.philosophers i).left_chopstick).is_free &&
  (s.chopsticks (s.philosophers i).right_chopstick).is_free

/-- Source `heapq.heappop` on the event list: remove and return an event of
minimal `time` (`Event.__lt__` compares only times; among equal times the
source's order is implementation-defined, here the first minimal element
is taken).  Returns `none` on the empty list (`IndexError` in Python). -/
def popEarliest : List Event → Option (Event × List Event)
  | [] => none
  | e :: es =>
    match popEarliest es with
    | none => some (e, es)
    | some (m, rest) =>
      if e.time ≤ m.time then some (e, es) else some (m, e :: rest)

/-- One iteration of the loop body of `Simulation.run`: pop the earliest
event, set the clock to its time, dispatch it, push the produced
follow-up event, and (ghost) append a trace entry. -/
def stepSim (expo : ℚ → Nat → ℚ) (s : SimState) :
    Except RunError SimState :=
  match popEarliest s.events with
  | none => .error .emptyHeap
  | some (e, rest) =>
    let entry : TraceEntry :=
      ⟨e.philosopher, e.time, e.etype,
       (s.philosophers e.philosopher).started_at, bothFree s e.philosopher⟩
    let pr := dispatch expo { s with events := rest, time := e.time } e
    .ok { pr.1 with
            events := pr.1.events ++ [pr.2],
            trace := pr.1.trace ++ [entry] }

/-- Iterate `k` unconditional iterations of the loop body (the event-dispatch
step relation). -/
def loopIter (expo : ℚ → Nat → ℚ) : Nat → SimState → Except RunError SimState
  | 0, s => .ok s
  | k + 1, s => (stepSim expo s).bind (loopIter expo k)

/-- Source `Simulation.__init__(self, mi, T, lambdas)` together with the seeding
of `Simulation.run`: `n = len(lambdas)` philosophers, and philosopher `i`
references chopstick `i` on the left and chopstick `(i+1) % n` on the
right; clock `0`; the queue holds one `REQUEST` event at time `0` per
philosopher, whose dispatch (the first `n` steps of the run) performs the
source's seeding calls `philosopher.request(0)` in index order. -/
def initState (mi T : ℚ) (lambdas : List ℚ) : SimState :=
  let n := lambdas.length
  { T := T
    time := 0
    nphils := n
    philosophers := fun i =>
      ⟨mi, lambdas.getD i 0, i, (i + 1) % n, 0, 0, 0, []⟩
    chopsticks := fun _ => Chopstick.init
    events := (List.range n).map (fun i => ⟨i, 0, .REQUEST⟩)
    rnd := 0
    trace := [] }

/-- The `while time < self.T` loop of `Simulation.run`, with explicit
fuel; on normal exit the remaining events are discarded
(`self.events.clear()`). -/
def runFuel (expo : ℚ → Nat → ℚ) : Nat → SimState → Except RunError SimState
  | 0, s =>
    if s.time < s.T then .error .outOfFuel else .ok { s with events := [] }
  | fuel + 1, s =>
    if s.time < s.T then (stepSim expo s).bind (runFuel expo fuel)
    else .ok { s with events := [] }

/-- Source `Simulation(mi, T, lambdas)` followed by `Simulation.run()`: seed
(the first `len lambdas` dispatch steps), then the horizon loop. -/
def runSim (expo : ℚ → Nat → ℚ) (mi T : ℚ) (lambdas : List ℚ)
    (fuel : Nat) : Except RunError SimState :=
  (loopIter expo lambdas.length (initState mi T lambdas)).bind
    (runFuel expo fuel)

/-- Philosopher `i` is eating (holds its chopsticks) at a loop-head
state: a `FINISH` event for it is pending. -/
def eatingP (s : SimState) (i : Nat) : Prop :=
  ∃ e ∈ s.events, e.philosopher = i ∧ e.etype = EventTypes.FINISH

instance (s : SimState) (i : Nat) : Decidable (eatingP s i) := by
  unfold eatingP; infer_instance

/-- The busy intervals `(started_at, finish time)` of philosopher `i`,
read off the ghost trace. -/
def intervalsOf (tr : List TraceEntry) (i : Nat) : List (ℚ × ℚ) :=
  (tr.filter (fun en =>
    en.philosopher == i && en.etype == EventTypes.FINISH)).map
    (fun en => (en.started, en.time))

/-- Number of `FINISH` events in a trace. -/
def finCount (tr : List TraceEntry) : Nat :=
  tr.countP (fun en => en.etype == EventTypes.FINISH)

/-- Number of `REQUEST` events dispatched to philosopher `i` in a trace
(the seeding calls included). -/
def reqCount (tr : List TraceEntry) (i : Nat) : Nat :=
  tr.countP (fun en =>
    en.philosopher == i && en.etype == EventTypes.REQUEST)

/-- Number of failed `REQUEST` dispatches to philosopher `i` in a
trace. -/
def failCount (tr : List TraceEntry) (i : Nat) : Nat :=
  tr.countP (fun en =>
    en.philosopher == i && en.etype == EventTypes.REQUEST && !en.ok)

/-- Total accumulated eating time over all philosophers. -/
def busySum (s : SimState) : ℚ :=
  ∑ i ∈ Finset.range s.nphils, (s.philosophers i).eating_time

/-- Extract the state of a successful run (junk default on error). -/
def getOk (r : Except RunError SimState) : SimState :=
  match r with
  | .ok s => s
  | .error _ => default

/-- Predicate `eatingP` over a bare event list. -/
def eatingL (l : List Event) (x : Nat) : Prop :=
  ∃ e ∈ l, e.philosopher = x ∧ e.etype = EventTypes.FINISH

theorem eatingP_def (s : SimState) (x : Nat) :
    eatingP s x = eatingL s.events x := rfl

/-! ### Properties of `popEarliest` -/

theorem popEarliest_none {l : List Event} (h : popEarliest l = none) :
    l = [] := by
  cases l with
  | nil => rfl
  | cons a as =>
    cases hp : popEarliest as with
    | none => simp [popEarliest, hp] at h
    | some pr =>
      rcases pr with ⟨m, rest⟩
      by_cases hle : a.time ≤ m.time <;> simp [popEarliest, hp, hle] at h

theorem popEarliest_some {l : List Event} (h : l ≠ []) :
    ∃ e rest, popEarliest l = some (e, rest) := by
  cases hp : popEarliest l with
  | none => exact absurd (popEarliest_none hp) h
  | some pr => exact ⟨pr.1, pr.2, rfl⟩

theorem popEarliest_perm {l : List Event} :
    ∀ {e : Event} {rest : List Event},
      popEarliest l = some (e, rest) → (e :: rest).Perm l := by
  induction l with
  | nil => intro e rest h; simp [popEarliest] at h
  | cons a as ih =>
    intro e rest h
    cases hp : popEarliest as with
    | none =>
      have has : as = [] := popEarliest_none hp
      subst has
      simp [popEarliest] at h
      rcases h with ⟨he, hr⟩
      subst he; subst hr
      exact List.Perm.refl _
    | some pr =>
      rcases pr with ⟨m, mrest⟩
      by_cases hle : a.time ≤ m.time
      · simp [popEarliest, hp, hle] at h
        rcases h with ⟨he, hr⟩
        subst he; subst hr
        exact List.Perm.refl _
      · simp [popEarliest, hp, hle] at h
        rcases h with ⟨he, hr⟩
        subst he; subst hr
        exact (List.Perm.swap a m mrest).trans ((ih hp).cons a)

theorem popEarliest_min {l : List Event} :
    ∀ {e : Event} {rest : List Event},
      popEarliest l = some (e, rest) → ∀ x ∈ l, e.time ≤ x.time := by
  induction l with
  | nil => intro e rest h; simp [popEarliest] at h
  | cons a as ih =>
    intro e rest h x hx
    cases hp : popEarliest as with
    | none =>
      have has : as = [] := popEarliest_none hp
      subst has
      simp [popEarliest] at h
      rcases h with ⟨he, _⟩
      subst he
      simp at hx
      subst hx
      exact le_refl _
    | some pr =>
      rcases pr with ⟨m, mrest⟩
      by_cases hle : a.time ≤ m.time
      · simp [popEarliest, hp, hle] at h
        rcases h with ⟨he, _⟩
        subst he
        rcases List.mem_cons.mp hx with h1 | h1
        · subst h1; exact le_refl _
        · exact le_trans hle (ih hp x h1)
      · simp [popEarliest, hp, hle] at h
        rcases h with ⟨he, _⟩
        subst he
        rcases List.mem_cons.mp hx with h1 | h1
        · subst h1; exact le_of_lt (lt_of_not_le hle)
        · exact ih hp x h1

theorem popEarliest_mem {l : List Event} {e : Event} {rest : List Event}
    (h : popEarliest l = some (e, rest)) : e ∈ l :=
  (popEarliest_perm h).mem_iff.mp (List.mem_cons_self _ _)

theorem popEarliest_rest_subset {l : List Event} {e : Event}
    {rest : List Event} (h : popEarliest l = some (e, rest)) :
    ∀ x ∈ rest, x ∈ l :=
  fun x hx => (popEarliest_perm h).mem_iff.mp (List.mem_cons_of_mem _ hx)

/-! ### Modular index arithmetic for the ring -/

theorem ring_succ_lt {n i : Nat} (h : i < n) : (i + 1) % n < n :=
  Nat.mod_lt _ (by omega)

theorem ring_prev_lt {n j : Nat} (h : j < n) : (j + n - 1) % n < n :=
  Nat.mod_lt _ (by omega)

theorem ring_succ_prev {n j : Nat} (h : j < n) :
    ((j + n - 1) % n + 1) % n = j := by
  rcases Nat.eq_zero_or_pos j with hj | hj
  · subst hj
    have e1 : 0 + n - 1 = n - 1 := by omega
    rw [e1, Nat.mod_eq_of_lt (show n - 1 < n by omega)]
    have e2 : n - 1 + 1 = n := by omega
    rw [e2, Nat.mod_self]
  · have e1 : j + n - 1 = (j - 1) + n := by omega
    rw [e1, Nat.add_mod_right,
      Nat.mod_eq_of_lt (show j - 1 < n by omega)]
    have e2 : j - 1 + 1 = j := by omega
    rw [e2]
    exact Nat.mod_eq_of_lt h

theorem ring_prev_succ {n i : Nat} (h : i < n) :
    ((i + 1) % n + n - 1) % n = i := by
  by_cases h1 : i + 1 = n
  · rw [h1, Nat.mod_self]
    have e1 : 0 + n - 1 = n - 1 := by omega
    rw [e1, Nat.mod_eq_of_lt (show n - 1 < n by omega)]
    omega
  · rw [Nat.mod_eq_of_lt (show i + 1 < n by omega)]
    have e2 : i + 1 + n - 1 = i + n := by omega
    rw [e2, Nat.add_mod_right]
    exact Nat.mod_eq_of_lt h

theorem ring_succ_inj {n i j : Nat} (hi : i < n) (hj : j < n)
    (h : (i + 1) % n = (j + 1) % n) : i = j := by
  have := ring_prev_succ hi
  rw [h, ring_prev_succ hj] at this
  omega

/-! ### Counting lemmas -/

theorem count_step {rest : List Event} {e ne : Event} {l : List Event}
    (hperm : (e :: rest).Perm l) (p : Event → Bool) (hpe : p e = p ne) :
    (rest ++ [ne]).countP p = l.countP p := by
  have h1 : (e :: rest).countP p = l.countP p := hperm.countP_eq p
  rw [List.countP_cons] at h1
  rw [List.countP_append, List.countP_cons, List.countP_nil]
  rw [← hpe]
  omega

theorem countP_zero_of_mem {l : List Event} {p : Event → Bool}
    (h : l.countP p = 0) : ∀ x ∈ l, p x = false := by
  intro x hx
  by_contra hpx
  have : 0 < l.countP p := List.countP_pos.mpr ⟨x, hx, by
    cases hp : p x
    · exact absurd hp hpx
    · rfl⟩
  omega

theorem countP_idx_lt {l : List Event} {n : Nat}
    (h : ∀ i, l.countP (fun e => e.philosopher == i) =
      if i < n then 1 else 0) :
    ∀ e ∈ l, e.philosopher < n := by
  intro e he
  by_contra hge
  have h0 := h e.philosopher
  rw [if_neg hge] at h0
  have := countP_zero_of_mem h0 e he
  simp at this

/-- Partition of a count over the philosopher index. -/
theorem countP_partition {α : Type} (l : List α) (f : α → Nat)
    (p : α → Bool) (n : Nat) (h : ∀ a ∈ l, f a < n) :
    ∑ i ∈ Finset.range n, l.countP (fun a => f a == i && p a) =
      l.countP p := by
  induction l with
  | nil => simp
  | cons a l ih =>
    have ha : f a < n := h a (List.mem_cons_self _ _)
    have ihl := ih (fun b hb => h b (List.mem_cons_of_mem _ hb))
    simp only [List.countP_cons]
    rw [Finset.sum_add_distrib, ihl]
    congr 1
    have hcong : ∀ i ∈ Finset.range n,
        (if (f a == i && p a) = true then 1 else 0) =
          if f a = i then (if p a = true then 1 else 0) else 0 := by
      intro i _
      by_cases hfi : f a = i
      · subst hfi; simp
      · simp [hfi]
    rw [Finset.sum_congr rfl hcong, Finset.sum_ite_eq (Finset.range n)]
    simp [ha]

/-! ### Explicit forms of one simulation step -/

theorem stepSim_ok_inv {expo : ℚ → Nat → ℚ} {s s' : SimState}
    (h : stepSim expo s = .ok s') :
    ∃ e rest, popEarliest s.events = some (e, rest) := by
  cases hp : popEarliest s.events with
  | none => rw [stepSim, hp] at h; exact absurd h (by simp)
  | some pr =>
    rcases pr with ⟨a, b⟩
    exact ⟨a, b, rfl⟩

/-- The state after dispatching a `FINISH` event. -/
def afterFinish (expo : ℚ → Nat → ℚ) (s : SimState) (e : Event)
    (rest : List Event) : SimState :=
  let i := e.philosopher
  let p := s.philosophers i
  { T := s.T
    time := e.time
    nphils := s.nphils
    philosophers := upd s.philosophers i
      { p with eating_time := p.eating_time + (e.time - p.started_at) }
    chopsticks := upd (upd s.chopsticks p.left_chopstick ⟨none⟩)
      p.right_chopstick ⟨none⟩
    events := rest ++ [⟨i, e.time + expo p.lambda_i s.rnd, .REQUEST⟩]
    rnd := s.rnd + 1
    trace := s.trace ++ [⟨i, e.time, e.etype, p.started_at, bothFree s i⟩] }

/-- The state after dispatching a successful `REQUEST` event. -/
def afterReqSucc (expo : ℚ → Nat → ℚ) (s : SimState) (e : Event)
    (rest : List Event) : SimState :=
  let i := e.philosopher
  let p := s.philosophers i
  { T := s.T
    time := e.time
    nphils := s.nphils
    philosophers := upd s.philosophers i
      { p with requests := p.requests ++ [e.time], started_at := e.time }
    chopsticks := upd (upd s.chopsticks p.left_chopstick ⟨some i⟩)
      p.right_chopstick ⟨some i⟩
    events := rest ++ [⟨i, e.time + expo p.mi s.rnd, .FINISH⟩]
    rnd := s.rnd + 1
    trace := s.trace ++ [⟨i, e.time, e.etype, p.started_at, bothFree s i⟩] }

/-- The state after dispatching a failed `REQUEST` event. -/
def afterReqFail (expo : ℚ → Nat → ℚ) (s : SimState) (e : Event)
    (rest : List Event) : SimState :=
  let i := e.philosopher
  let p := s.philosophers i
  { T := s.T
    time := e.time
    nphils := s.nphils
    philosophers := upd s.philosophers i
      { p with requests := p.requests ++ [e.time],
               failed_attempts := p.failed_attempts + 1 }
    chopsticks := s.chopsticks
    events := rest ++ [⟨i, e.time + expo p.lambda_i s.rnd, .REQUEST⟩]
    rnd := s.rnd + 1
    trace := s.trace ++ [⟨i, e.time, e.etype, p.started_at, bothFree s i⟩] }

theorem stepSim_finish {expo : ℚ → Nat → ℚ} {s : SimState} {e : Event}
    {rest : List Event} (hp : popEarliest s.events = some (e, rest))
    (hty : e.etype = EventTypes.FINISH) :
    stepSim expo s = .ok (afterFinish expo s e rest) := by
  rw [stepSim, hp]
  simp only [dispatch, hty, finish, afterFinish, hty]
  rfl

theorem stepSim_req_succ {expo : ℚ → Nat → ℚ} {s : SimState} {e : Event}
    {rest : List Event} (hp : popEarliest s.events = some (e, rest))
    (hty : e.etype = EventTypes.REQUEST)
    (hfree : bothFree s e.philosopher = true) :
    stepSim expo s = .ok (afterReqSucc expo s e rest) := by
  rw [stepSim, hp]
  simp only [dispatch, hty, request, afterReqSucc]
  rw [bothFree] at hfree
  simp only [hfree]
  rfl

theorem stepSim_req_fail {expo : ℚ → Nat → ℚ} {s : SimState} {e : Event}
    {rest : List Event} (hp : popEarliest s.events = some (e, rest))
    (hty : e.etype = EventTypes.REQUEST)
    (hfree : bothFree s e.philosopher = false) :
    stepSim expo s = .ok (afterReqFail expo s e rest) := by
  rw [stepSim, hp]
  simp only [dispatch, hty, request, afterReqFail]
  rw [bothFree] at hfree
  simp only [hfree]
  rfl

/-! ### Transfer lemmas for the eating predicate across one step -/

theorem eatingL_append_other {rest : List Event} (q : Nat) (t : ℚ)
    (ty : EventTypes) {x : Nat} (hx : x ≠ q) :
    eatingL (rest ++ [(⟨q, t, ty⟩ : Event)]) x ↔ eatingL rest x := by
  unfold eatingL
  constructor
  · rintro ⟨ev, hev, hevx, hevt⟩
    rcases List.mem_append.mp hev with h1 | h1
    · exact ⟨ev, h1, hevx, hevt⟩
    · simp at h1
      subst h1
      simp only at hevx
      exact absurd hevx.symm hx
  · rintro ⟨ev, hev, hevx, hevt⟩
    exact ⟨ev, List.mem_append.mpr (Or.inl hev), hevx, hevt⟩

theorem eatingL_append_req {rest : List Event} {ne : Event} {x : Nat}
    (ht : ne.etype = EventTypes.REQUEST) :
    eatingL (rest ++ [ne]) x ↔ eatingL rest x := by
  unfold eatingL
  constructor
  · rintro ⟨ev, hev, hevx, hevt⟩
    rcases List.mem_append.mp hev with h1 | h1
    · exact ⟨ev, h1, hevx, hevt⟩
    · simp at h1
      subst h1
      rw [ht] at hevt
      exact absurd hevt (by simp)
  · rintro ⟨ev, hev, hevx, hevt⟩
    exact ⟨ev, List.mem_append.mpr (Or.inl hev), hevx, hevt⟩

theorem eatingL_append_fin {rest : List Event} {ne : Event}
    (ht : ne.etype = EventTypes.FINISH) :
    eatingL (rest ++ [ne]) ne.philosopher :=
  ⟨ne, by simp, rfl, ht⟩

theorem eatingL_rest_iff {s : SimState} {e : Event} {rest : List Event}
    (hp : popEarliest s.events = some (e, rest)) {x : Nat}
    (hx : e.philosopher ≠ x) :
    eatingL rest x ↔ eatingP s x := by
  unfold eatingP eatingL
  constructor
  · rintro ⟨ev, hev, hevx, hevt⟩
    exact ⟨ev, popEarliest_rest_subset hp ev hev, hevx, hevt⟩
  · rintro ⟨ev, hev, hevx, hevt⟩
    have hmem : ev ∈ e :: rest := (popEarliest_perm hp).mem_iff.mpr hev
    rcases List.mem_cons.mp hmem with h1 | h1
    · subst h1
      exact absurd hevx hx
    · exact ⟨ev, h1, hevx, hevt⟩

theorem rest_no_idx {s : SimState} {e : Event} {rest : List Event}
    (hp : popEarliest s.events = some (e, rest))
    (huniq : s.events.countP
      (fun ev => ev.philosopher == e.philosopher) = 1) :
    ∀ ev ∈ rest, ev.philosopher ≠ e.philosopher := by
  have h1 : (e :: rest).countP
      (fun ev => ev.philosopher == e.philosopher) = 1 :=
    ((popEarliest_perm hp).countP_eq _).trans huniq
  rw [List.countP_cons] at h1
  simp only [beq_self_eq_true, if_pos] at h1
  have h0 : rest.countP (fun ev => ev.philosopher == e.philosopher) = 0 := by
    omega
  intro ev hev
  have := countP_zero_of_mem h0 ev hev
  simpa using this

theorem eatingL_rest_not {s : SimState} {e : Event} {rest : List Event}
    (hp : popEarliest s.events = some (e, rest))
    (huniq : s.events.countP
      (fun ev => ev.philosopher == e.philosopher) = 1) :
    ¬ eatingL rest e.philosopher := by
  rintro ⟨ev, hev, hevx, _⟩
  exact rest_no_idx hp huniq ev hev hevx

/-! ### The structural invariant -/

/-- Structural invariant of reachable simulation states: ring wiring,
exactly one pending event per live philosopher, and consistency of the
(ghost) chopstick holders with the eating philosophers.  `eatingP s i`
(a pending `FINISH` event for `i`) plays the role of the spec's `EATING`
state. -/
structure InvCore (s : SimState) : Prop where
  wire_left : ∀ i, (s.philosophers i).left_chopstick = i
  wire_right : ∀ i, (s.philosophers i).right_chopstick =
    (i + 1) % s.nphils
  uniq : ∀ i, s.events.countP (fun e => e.philosopher == i) =
    if i < s.nphils then 1 else 0
  chop_eat : ∀ i, i < s.nphils → eatingP s i →
    s.chopsticks i = ⟨some i⟩ ∧
    s.chopsticks ((i + 1) % s.nphils) = ⟨some i⟩
  chop_free : ∀ j, j < s.nphils → ¬ eatingP s j →
    ¬ eatingP s ((j + s.nphils - 1) % s.nphils) →
    s.chopsticks j = ⟨none⟩
  mutex : ∀ i, i < s.nphils → eatingP s i →
    eatingP s ((i + 1) % s.nphils) → (i + 1) % s.nphils = i

theorem InvCore.idx_lt {s : SimState} (hc : InvCore s) :
    ∀ e ∈ s.events, e.philosopher < s.nphils :=
  countP_idx_lt hc.uniq

theorem count_step_idx {rest : List Event} {e : Event} {l : List Event}
    (hperm : (e :: rest).Perm l) (t : ℚ) (ty : EventTypes) (x : Nat) :
    (rest ++ [(⟨e.philosopher, t, ty⟩ : Event)]).countP
      (fun ev => ev.philosopher == x) =
    l.countP (fun ev => ev.philosopher == x) :=
  count_step hperm _ rfl

theorem invCore_afterFinish {expo : ℚ → Nat → ℚ} {s : SimState}
    {e : Event} {rest : List Event} (hc : InvCore s)
    (hp : popEarliest s.events = some (e, rest))
    (hty : e.etype = EventTypes.FINISH) :
    InvCore (afterFinish expo s e rest) := by
  have hiN : e.philosopher < s.nphils := hc.idx_lt e (popEarliest_mem hp)
  have hNpos : 0 < s.nphils := by omega
  have heatS : eatingP s e.philosopher := ⟨e, popEarliest_mem hp, rfl, hty⟩
  have hchopL : s.chopsticks e.philosopher = ⟨some e.philosopher⟩ :=
    (hc.chop_eat _ hiN heatS).1
  have hchopR : s.chopsticks ((e.philosopher + 1) % s.nphils) =
      ⟨some e.philosopher⟩ := (hc.chop_eat _ hiN heatS).2
  have heatrest : ∀ x, x ≠ e.philosopher → (eatingL rest x ↔ eatingP s x) :=
    fun x hx => eatingL_rest_iff hp (fun h => hx h.symm)
  have hnoti : ¬ eatingL rest e.philosopher :=
    eatingL_rest_not hp (by rw [hc.uniq e.philosopher, if_pos hiN])
  refine ⟨?_, ?_, ?_, ?_, ?_, ?_⟩ <;>
    simp only [afterFinish, eatingP_def]
  · -- wire_left
    intro x
    by_cases hx : x = e.philosopher
    · rw [hx, upd_same]
      exact hc.wire_left e.philosopher
    · rw [upd_other _ _ _ _ hx]
      exact hc.wire_left x
  · -- wire_right
    intro x
    by_cases hx : x = e.philosopher
    · rw [hx, upd_same]
      exact hc.wire_right e.philosopher
    · rw [upd_other _ _ _ _ hx]
      exact hc.wire_right x
  · -- uniq
    intro x
    rw [count_step_idx (popEarliest_perm hp)]
    exact hc.uniq x
  · -- chop_eat
    intro x hxN hx
    rw [eatingL_append_req rfl] at hx
    have hxi : x ≠ e.philosopher := fun h => hnoti (h ▸ hx)
    have hxS : eatingP s x := (heatrest x hxi).mp hx
    obtain ⟨hcx1, hcx2⟩ := hc.chop_eat x hxN hxS
    have hxne2 : x ≠ (e.philosopher + 1) % s.nphils := by
      intro h
      rw [← h, hcx1] at hchopR
      exact hxi (by injection hchopR with h2; injection h2)
    have hsne1 : (x + 1) % s.nphils ≠ e.philosopher := by
      intro h
      rw [h, hchopL] at hcx2
      apply hxi
      injection hcx2 with h2
      injection h2 with h3
      exact h3.symm
    have hsne2 : (x + 1) % s.nphils ≠ (e.philosopher + 1) % s.nphils :=
      fun h => hxi (ring_succ_inj hxN hiN h)
    rw [hc.wire_left e.philosopher, hc.wire_right e.philosopher]
    constructor
    · rw [upd_other _ _ _ _ hxne2, upd_other _ _ _ _ hxi]
      exact hcx1
    · rw [upd_other _ _ _ _ hsne2, upd_other _ _ _ _ hsne1]
      exact hcx2
  · -- chop_free
    intro j hjN hj hjp
    rw [eatingL_append_req rfl] at hj hjp
    rw [hc.wire_left e.philosopher, hc.wire_right e.philosopher]
    by_cases hj2 : j = (e.philosopher + 1) % s.nphils
    · rw [hj2, upd_same]
    · rw [upd_other _ _ _ _ hj2]
      by_cases hj1 : j = e.philosopher
      · rw [hj1, upd_same]
      · rw [upd_other _ _ _ _ hj1]
        have hprev : (j + s.nphils - 1) % s.nphils ≠ e.philosopher := by
          intro h
          apply hj2
          have h2 := ring_succ_prev hjN
          rw [h] at h2
          exact h2.symm
        exact hc.chop_free j hjN
          (fun hS => hj ((heatrest j hj1).mpr hS))
          (fun hS => hjp ((heatrest _ hprev).mpr hS))
  · -- mutex
    intro x hxN hx hxs
    rw [eatingL_append_req rfl] at hx hxs
    have hxi : x ≠ e.philosopher := fun h => hnoti (h ▸ hx)
    by_cases hsi : (x + 1) % s.nphils = e.philosopher
    · exact absurd (hsi ▸ hxs) hnoti
    · exact hc.mutex x hxN ((heatrest x hxi).mp hx)
        ((heatrest _ hsi).mp hxs)

theorem chop_eq_free {c : Chopstick} (h : c.is_free = true) :
    c = ⟨none⟩ := by
  rcases c with ⟨holder⟩
  rcases holder with _ | v
  · rfl
  · simp [Chopstick.is_free] at h

theorem bothFree_chops {s : SimState} {i : Nat} (hc : InvCore s)
    (hfree : bothFree s i = true) :
    s.chopsticks i = ⟨none⟩ ∧
    s.chopsticks ((i + 1) % s.nphils) = ⟨none⟩ := by
  rw [bothFree, hc.wire_left i, hc.wire_right i, Bool.and_eq_true] at hfree
  exact ⟨chop_eq_free hfree.1, chop_eq_free hfree.2⟩

theorem not_eating_of_request {s : SimState} {e : Event}
    {rest : List Event} (hc : InvCore s)
    (hp : popEarliest s.events = some (e, rest))
    (hty : e.etype = EventTypes.REQUEST) :
    ¬ eatingP s e.philosopher := by
  have hiN : e.philosopher < s.nphils := hc.idx_lt e (popEarliest_mem hp)
  have hrest := rest_no_idx hp (by rw [hc.uniq e.philosopher, if_pos hiN])
  rintro ⟨ev, hev, hevx, hevt⟩
  have hmem : ev ∈ e :: rest := (popEarliest_perm hp).mem_iff.mpr hev
  rcases List.mem_cons.mp hmem with h1 | h1
  · subst h1
    rw [hty] at hevt
    exact absurd hevt (by simp)
  · exact hrest ev h1 hevx

theorem invCore_afterReqSucc {expo : ℚ → Nat → ℚ} {s : SimState}
    {e : Event} {rest : List Event} (hc : InvCore s)
    (hp : popEarliest s.events = some (e, rest))
    (hty : e.etype = EventTypes.REQUEST)
    (hfree : bothFree s e.philosopher = true) :
    InvCore (afterReqSucc expo s e rest) := by
  have hiN : e.philosopher < s.nphils := hc.idx_lt e (popEarliest_mem hp)
  have hNpos : 0 < s.nphils := by omega
  obtain ⟨hfreeL, hfreeR⟩ := bothFree_chops hc hfree
  have heatrest : ∀ x, x ≠ e.philosopher → (eatingL rest x ↔ eatingP s x) :=
    fun x hx => eatingL_rest_iff hp (fun h => hx h.symm)
  have heatI : eatingL
      (rest ++ [(⟨e.philosopher, e.time + expo (s.philosophers e.philosopher).mi s.rnd, EventTypes.FINISH⟩ : Event)])
      e.philosopher := eatingL_append_fin rfl
  -- no philosopher whose chopsticks meet `e.philosopher`'s is eating
  have hnotR : ¬ eatingP s ((e.philosopher + 1) % s.nphils) := by
    intro hS
    have := (hc.chop_eat _ (ring_succ_lt hiN) hS).1
    rw [hfreeR] at this
    exact absurd (by injection this) (by simp)
  have hnotI2 : ∀ x, x < s.nphils → (x + 1) % s.nphils = e.philosopher →
      ¬ eatingP s x := by
    intro x hxN hsx hS
    have := (hc.chop_eat x hxN hS).2
    rw [hsx, hfreeL] at this
    exact absurd (by injection this) (by simp)
  refine ⟨?_, ?_, ?_, ?_, ?_, ?_⟩ <;>
    simp only [afterReqSucc, eatingP_def]
  · intro x
    by_cases hx : x = e.philosopher
    · rw [hx, upd_same]
      exact hc.wire_left e.philosopher
    · rw [upd_other _ _ _ _ hx]
      exact hc.wire_left x
  · intro x
    by_cases hx : x = e.philosopher
    · rw [hx, upd_same]
      exact hc.wire_right e.philosopher
    · rw [upd_other _ _ _ _ hx]
      exact hc.wire_right x
  · intro x
    rw [count_step_idx (popEarliest_perm hp)]
    exact hc.uniq x
  · -- chop_eat
    intro x hxN hx
    rw [hc.wire_left e.philosopher, hc.wire_right e.philosopher]
    by_cases hxi : x = e.philosopher
    · rw [hxi]
      by_cases hii : e.philosopher = (e.philosopher + 1) % s.nphils
      · constructor
        · rw [upd, if_pos hii]
        · rw [upd_same]
      · constructor
        · rw [upd_other _ _ _ _ hii, upd_same]
        · rw [upd_same]
    · rw [eatingL_append_other _ _ _ hxi] at hx
      have hxS : eatingP s x := (heatrest x hxi).mp hx
      obtain ⟨hcx1, hcx2⟩ := hc.chop_eat x hxN hxS
      have hxne2 : x ≠ (e.philosopher + 1) % s.nphils := by
        intro h
        rw [← h, hcx1] at hfreeR
        exact absurd (by injection hfreeR) (by simp)
      have hsne1 : (x + 1) % s.nphils ≠ e.philosopher := by
        intro h
        rw [h, hfreeL] at hcx2
        exact absurd (by injection hcx2) (by simp)
      have hsne2 : (x + 1) % s.nphils ≠ (e.philosopher + 1) % s.nphils :=
        fun h => hxi (ring_succ_inj hxN hiN h)
      constructor
      · rw [upd_other _ _ _ _ hxne2, upd_other _ _ _ _ hxi]
        exact hcx1
      · rw [upd_other _ _ _ _ hsne2, upd_other _ _ _ _ hsne1]
        exact hcx2
  · -- chop_free
    intro j hjN hj hjp
    have hji : j ≠ e.philosopher := by
      intro h
      exact hj (h ▸ heatI)
    have hprevi : (j + s.nphils - 1) % s.nphils ≠ e.philosopher := by
      intro h
      exact hjp (h ▸ heatI)
    have hj2 : j ≠ (e.philosopher + 1) % s.nphils := by
      intro h
      apply hprevi
      rw [h]
      exact ring_prev_succ hiN
    rw [eatingL_append_other _ _ _ hji] at hj
    rw [eatingL_append_other _ _ _ hprevi] at hjp
    rw [hc.wire_left e.philosopher, hc.wire_right e.philosopher]
    rw [upd_other _ _ _ _ hj2, upd_other _ _ _ _ hji]
    exact hc.chop_free j hjN
      (fun hS => hj ((heatrest j hji).mpr hS))
      (fun hS => hjp ((heatrest _ hprevi).mpr hS))
  · -- mutex
    intro x hxN hx hxs
    by_cases hxi : x = e.philosopher
    · by_cases hii : (x + 1) % s.nphils = x
      · exact hii
      · exfalso
        rw [hxi] at hii hxs
        rw [eatingL_append_other _ _ _ hii] at hxs
        exact hnotR ((heatrest _ hii).mp hxs)
    · rw [eatingL_append_other _ _ _ hxi] at hx
      by_cases hsi : (x + 1) % s.nphils = e.philosopher
      · exact absurd ((heatrest x hxi).mp hx) (hnotI2 x hxN hsi)
      · rw [eatingL_append_other _ _ _ hsi] at hxs
        exact hc.mutex x hxN ((heatrest x hxi).mp hx)
          ((heatrest _ hsi).mp hxs)

theorem invCore_afterReqFail {expo : ℚ → Nat → ℚ} {s : SimState}
    {e : Event} {rest : List Event} (hc : InvCore s)
    (hp : popEarliest s.events = some (e, rest))
    (hty : e.etype = EventTypes.REQUEST) :
    InvCore (afterReqFail expo s e rest) := by
  have hiN : e.philosopher < s.nphils := hc.idx_lt e (popEarliest_mem hp)
  have heatrest : ∀ x, x ≠ e.philosopher → (eatingL rest x ↔ eatingP s x) :=
    fun x hx => eatingL_rest_iff hp (fun h => hx h.symm)
  have hnotS : ¬ eatingP s e.philosopher := not_eating_of_request hc hp hty
  have hnoti : ¬ eatingL rest e.philosopher :=
    eatingL_rest_not hp (by rw [hc.uniq e.philosopher, if_pos hiN])
  have htrans : ∀ x, eatingL
      (rest ++ [(⟨e.philosopher, e.time + expo ((s.philosophers e.philosopher).lambda_i) s.rnd, EventTypes.REQUEST⟩ : Event)]) x ↔
      eatingL rest x := fun x => eatingL_append_req rfl
  have htrans2 : ∀ x, eatingL rest x → eatingP s x := by
    intro x hx
    by_cases hxi : x = e.philosopher
    · exact absurd (hxi ▸ hx) hnoti
    · exact (heatrest x hxi).mp hx
  refine ⟨?_, ?_, ?_, ?_, ?_, ?_⟩ <;>
    simp only [afterReqFail, eatingP_def]
  · intro x
    by_cases hx : x = e.philosopher
    · rw [hx, upd_same]
      exact hc.wire_left e.philosopher
    · rw [upd_other _ _ _ _ hx]
      exact hc.wire_left x
  · intro x
    by_cases hx : x = e.philosopher
    · rw [hx, upd_same]
      exact hc.wire_right e.philosopher
    · rw [upd_other _ _ _ _ hx]
      exact hc.wire_right x
  · intro x
    rw [count_step_idx (popEarliest_perm hp)]
    exact hc.uniq x
  · intro x hxN hx
    rw [htrans] at hx
    exact hc.chop_eat x hxN (htrans2 x hx)
  · intro j hjN hj hjp
    rw [htrans] at hj hjp
    refine hc.chop_free j hjN (fun hS => ?_) (fun hS => ?_)
    · by_cases hji : j = e.philosopher
      · exact hnotS (hji ▸ hS)
      · exact hj ((heatrest j hji).mpr hS)
    · by_cases hji : (j + s.nphils - 1) % s.nphils = e.philosopher
      · exact hnotS (hji ▸ hS)
      · exact hjp ((heatrest _ hji).mpr hS)
  · intro x hxN hx hxs
    rw [htrans] at hx hxs
    exact hc.mutex x hxN (htrans2 x hx) (htrans2 _ hxs)

/-- One loop-body step preserves the structural invariant (no assumption
on the random draws is needed). -/
theorem stepSim_invCore {expo : ℚ → Nat → ℚ} {s s' : SimState}
    (hc : InvCore s) (h : stepSim expo s = .ok s') :
    InvCore s' ∧ s'.nphils = s.nphils ∧ s'.T = s.T := by
  obtain ⟨e, rest, hp⟩ := stepSim_ok_inv h
  cases hty : e.etype with
  | FINISH =>
    rw [stepSim_finish hp hty] at h
    injection h with h
    rw [← h]
    exact ⟨invCore_afterFinish hc hp hty, rfl, rfl⟩
  | REQUEST =>
    cases hfree : bothFree s e.philosopher with
    | true =>
      rw [stepSim_req_succ hp hty hfree] at h
      injection h with h
      rw [← h]
      exact ⟨invCore_afterReqSucc hc hp hty hfree, rfl, rfl⟩
    | false =>
      rw [stepSim_req_fail hp hty hfree] at h
      injection h with h
      rw [← h]
      exact ⟨invCore_afterReqFail hc hp hty, rfl, rfl⟩

/-! ### List helpers for the timed invariant -/

theorem countP_append_single {a : Type} (l : List a) (x : a) (p : a -> Bool) :
    (l ++ [x]).countP p = l.countP p + (if p x then 1 else 0) := by
  rw [List.countP_append, List.countP_cons, List.countP_nil]
  omega

theorem pairwise_append_single {a : Type} {R : a -> a -> Prop} {l : List a}
    {x : a} (hl : l.Pairwise R) (hx : forall y, y ∈ l -> R y x) :
    (l ++ [x]).Pairwise R := by
  rw [List.pairwise_append]
  refine ⟨hl, List.pairwise_singleton _ _, ?_⟩
  intro y hy z hz
  simp at hz
  rw [hz]
  exact hx y hy

theorem chain_append_single {a : Type} {R : a -> a -> Prop} {l : List a}
    {x : a} (hl : l.Chain' R) (hx : forall y, l.getLast? = some y -> R y x) :
    (l ++ [x]).Chain' R := by
  rw [List.chain'_append]
  refine ⟨hl, List.chain'_singleton _, ?_⟩
  intro y hy z hz
  simp at hz
  rw [← hz]
  exact hx y hy

/-- Last accumulated busy-interval end of a philosopher (0 if none). -/
def lastEndOf (l : List (ℚ × ℚ)) : ℚ :=
  (l.getLastD ((0 : ℚ), (0 : ℚ))).2

theorem lastEndOf_append (l : List (ℚ × ℚ)) (p : ℚ × ℚ) :
    lastEndOf (l ++ [p]) = p.2 := by
  unfold lastEndOf
  induction l with
  | nil => rfl
  | cons q l ih =>
    rw [List.cons_append]
    rcases l with _ | ⟨r, l⟩
    · rfl
    · exact ih

theorem lastEndOf_eq_getLast {l : List (ℚ × ℚ)} {x : ℚ × ℚ}
    (h : l.getLast? = some x) : lastEndOf l = x.2 := by
  unfold lastEndOf
  rw [List.getLastD_eq_getLast?, h]
  rfl

theorem intervalsOf_append (tr : List TraceEntry) (en : TraceEntry)
    (i : Nat) :
    intervalsOf (tr ++ [en]) i =
      intervalsOf tr i ++
        (if en.philosopher == i && en.etype == EventTypes.FINISH then
          [(en.started, en.time)] else []) := by
  unfold intervalsOf
  rw [List.filter_append, List.map_append]
  congr 1
  cases h : (en.philosopher == i && en.etype == EventTypes.FINISH) <;>
    simp [h]

theorem intervalsOf_append_fin (tr : List TraceEntry) (en : TraceEntry)
    (i : Nat) (hi : en.philosopher = i) (ht : en.etype = EventTypes.FINISH) :
    intervalsOf (tr ++ [en]) i =
      intervalsOf tr i ++ [(en.started, en.time)] := by
  rw [intervalsOf_append, hi, ht]
  simp

theorem intervalsOf_append_req (tr : List TraceEntry) (en : TraceEntry)
    (ht : en.etype = EventTypes.REQUEST) (i : Nat) :
    intervalsOf (tr ++ [en]) i = intervalsOf tr i := by
  rw [intervalsOf_append, ht]
  simp

theorem intervalsOf_append_idx (tr : List TraceEntry) (en : TraceEntry)
    {i : Nat} (hi : en.philosopher ≠ i) :
    intervalsOf (tr ++ [en]) i = intervalsOf tr i := by
  rw [intervalsOf_append]
  have : (en.philosopher == i) = false := by
    simp [hi]
  rw [this]
  simp

/-! ### The timed invariant -/

/-- Timing invariant of reachable states, sound for positive random
draws: the clock is below all pending events, the trace is
time-monotone and accounts exactly for the per-philosopher statistics,
and the busy intervals chain up in order. -/
structure InvT (s : SimState) : Prop where
  time_nonneg : 0 ≤ s.time
  started_nonneg : forall i, 0 ≤ (s.philosophers i).started_at
  ev_time : forall e, e ∈ s.events -> s.time ≤ e.time
  tr_time : forall en, en ∈ s.trace -> en.time ≤ s.time
  tr_idx : forall en, en ∈ s.trace -> en.philosopher < s.nphils
  tr_started : forall en, en ∈ s.trace -> 0 ≤ en.started
  tr_mono : s.trace.Pairwise (fun x y => x.time ≤ y.time)
  req_sorted : forall i, ((s.philosophers i).requests).Pairwise (· < ·)
  req_lt_pending : forall i, forall e, e ∈ s.events -> e.philosopher = i ->
    forall q, q ∈ (s.philosophers i).requests -> q < e.time
  started_le_fin : forall e, e ∈ s.events -> e.etype = EventTypes.FINISH ->
    (s.philosophers e.philosopher).started_at ≤ e.time
  lastEnd_started : forall e, e ∈ s.events -> e.etype = EventTypes.FINISH ->
    lastEndOf (intervalsOf s.trace e.philosopher) ≤
      (s.philosophers e.philosopher).started_at
  lastEnd_time : forall i, ¬ eatingP s i ->
    lastEndOf (intervalsOf s.trace i) ≤ s.time
  chainI : forall i, (intervalsOf s.trace i).Chain' (fun x y => x.2 ≤ y.1)
  pair_le : forall i, forall p, p ∈ intervalsOf s.trace i -> p.1 ≤ p.2
  busy_eq : forall i, (s.philosophers i).eating_time =
    ((intervalsOf s.trace i).map (fun p => p.2 - p.1)).sum
  req_count : forall i, ((s.philosophers i).requests).length =
    reqCount s.trace i
  fail_count : forall i, (s.philosophers i).failed_attempts =
    failCount s.trace i

theorem reqCount_append (tr : List TraceEntry) (en : TraceEntry)
    (x : Nat) :
    reqCount (tr ++ [en]) x = reqCount tr x +
      (if en.philosopher == x && en.etype == EventTypes.REQUEST
        then 1 else 0) := by
  unfold reqCount
  exact countP_append_single _ _ _

theorem failCount_append (tr : List TraceEntry) (en : TraceEntry)
    (x : Nat) :
    failCount (tr ++ [en]) x = failCount tr x +
      (if en.philosopher == x && en.etype == EventTypes.REQUEST && !en.ok
        then 1 else 0) := by
  unfold failCount
  exact countP_append_single _ _ _

theorem finCount_append (tr : List TraceEntry) (en : TraceEntry) :
    finCount (tr ++ [en]) = finCount tr +
      (if en.etype == EventTypes.FINISH then 1 else 0) := by
  unfold finCount
  exact countP_append_single _ _ _

theorem invT_afterFinish {expo : ℚ → Nat → ℚ} {s : SimState} {e : Event}
    {rest : List Event} (hpos : ∀ r k, 0 < expo r k) (hc : InvCore s)
    (ht : InvT s) (hp : popEarliest s.events = some (e, rest))
    (hty : e.etype = EventTypes.FINISH) :
    InvT (afterFinish expo s e rest) := by
  have hiN : e.philosopher < s.nphils := hc.idx_lt e (popEarliest_mem hp)
  have hmem : e ∈ s.events := popEarliest_mem hp
  have hsub : ∀ x ∈ rest, x ∈ s.events := popEarliest_rest_subset hp
  have hmin : ∀ x ∈ s.events, e.time ≤ x.time := popEarliest_min hp
  have hrest : ∀ ev ∈ rest, ev.philosopher ≠ e.philosopher :=
    rest_no_idx hp (by rw [hc.uniq e.philosopher, if_pos hiN])
  have htle : s.time ≤ e.time := ht.ev_time e hmem
  have hstf : (s.philosophers e.philosopher).started_at ≤ e.time :=
    ht.started_le_fin e hmem hty
  have hles : lastEndOf (intervalsOf s.trace e.philosopher) ≤
      (s.philosophers e.philosopher).started_at :=
    ht.lastEnd_started e hmem hty
  have hd := hpos (s.philosophers e.philosopher).lambda_i s.rnd
  refine ⟨?_, ?_, ?_, ?_, ?_, ?_, ?_, ?_, ?_, ?_, ?_, ?_, ?_, ?_, ?_, ?_,
    ?_⟩ <;> simp only [afterFinish, eatingP_def]
  · -- time_nonneg
    exact le_trans ht.time_nonneg htle
  · -- started_nonneg
    intro x
    by_cases hx : x = e.philosopher
    · rw [hx, upd_same]
      exact ht.started_nonneg e.philosopher
    · rw [upd_other _ _ _ _ hx]
      exact ht.started_nonneg x
  · -- ev_time
    intro ev hev
    rcases List.mem_append.mp hev with h1 | h1
    · exact hmin ev (hsub ev h1)
    · simp only [List.mem_singleton] at h1
      rw [h1]
      show e.time ≤ e.time + expo (s.philosophers e.philosopher).lambda_i s.rnd
      linarith
  · -- tr_time
    intro en hen
    rcases List.mem_append.mp hen with h1 | h1
    · exact le_trans (ht.tr_time en h1) htle
    · simp only [List.mem_singleton] at h1
      rw [h1]
  · -- tr_idx
    intro en hen
    rcases List.mem_append.mp hen with h1 | h1
    · exact ht.tr_idx en h1
    · simp only [List.mem_singleton] at h1
      rw [h1]
      exact hiN
  · -- tr_started
    intro en hen
    rcases List.mem_append.mp hen with h1 | h1
    · exact ht.tr_started en h1
    · simp only [List.mem_singleton] at h1
      rw [h1]
      exact ht.started_nonneg e.philosopher
  · -- tr_mono
    exact pairwise_append_single ht.tr_mono
      (fun x hx => le_trans (ht.tr_time x hx) htle)
  · -- req_sorted
    intro x
    by_cases hx : x = e.philosopher
    · rw [hx, upd_same]
      exact ht.req_sorted e.philosopher
    · rw [upd_other _ _ _ _ hx]
      exact ht.req_sorted x
  · -- req_lt_pending
    intro x ev hev hevx q hq
    rcases List.mem_append.mp hev with h1 | h1
    · have hxne : x ≠ e.philosopher := by
        rw [← hevx]
        exact hrest ev h1
      rw [upd_other _ _ _ _ hxne] at hq
      exact ht.req_lt_pending x ev (hsub ev h1) hevx q hq
    · simp only [List.mem_singleton] at h1
      rw [h1] at hevx ⊢
      dsimp only at hevx
      rw [← hevx] at hq
      rw [upd_same] at hq
      have hq2 : q < e.time :=
        ht.req_lt_pending e.philosopher e hmem rfl q hq
      show q < e.time + expo (s.philosophers e.philosopher).lambda_i s.rnd
      linarith
  · -- started_le_fin
    intro ev hev hevt
    rcases List.mem_append.mp hev with h1 | h1
    · have hne : ev.philosopher ≠ e.philosopher := hrest ev h1
      rw [upd_other _ _ _ _ hne]
      exact ht.started_le_fin ev (hsub ev h1) hevt
    · simp only [List.mem_singleton] at h1
      rw [h1] at hevt
      simp at hevt
  · -- lastEnd_started
    intro ev hev hevt
    rcases List.mem_append.mp hev with h1 | h1
    · have hne : ev.philosopher ≠ e.philosopher := hrest ev h1
      rw [upd_other _ _ _ _ hne,
        intervalsOf_append_idx _ _ (fun h => hne h.symm)]
      exact ht.lastEnd_started ev (hsub ev h1) hevt
    · simp only [List.mem_singleton] at h1
      rw [h1] at hevt
      simp at hevt
  · -- lastEnd_time
    intro x hx
    by_cases hxi : x = e.philosopher
    · rw [hxi, intervalsOf_append_fin _ _ _ rfl hty, lastEndOf_append]
    · rw [intervalsOf_append_idx _ _ (fun h => hxi h.symm)]
      rw [eatingL_append_req rfl] at hx
      have hnot : ¬ eatingP s x :=
        fun hS => hx ((eatingL_rest_iff hp (fun hh => hxi hh.symm)).mpr hS)
      exact le_trans (ht.lastEnd_time x hnot) htle
  · -- chainI
    intro x
    by_cases hxi : x = e.philosopher
    · rw [hxi, intervalsOf_append_fin _ _ _ rfl hty]
      refine chain_append_single (ht.chainI e.philosopher) ?_
      intro y hy
      have hle := lastEndOf_eq_getLast hy
      show y.2 ≤ (s.philosophers e.philosopher).started_at
      rw [← hle]
      exact hles
    · rw [intervalsOf_append_idx _ _ (fun h => hxi h.symm)]
      exact ht.chainI x
  · -- pair_le
    intro x p hp2
    by_cases hxi : x = e.philosopher
    · rw [hxi, intervalsOf_append_fin _ _ _ rfl hty] at hp2
      rcases List.mem_append.mp hp2 with h1 | h1
      · exact ht.pair_le e.philosopher p h1
      · simp only [List.mem_singleton] at h1
        rw [h1]
        exact hstf
    · rw [intervalsOf_append_idx _ _ (fun h => hxi h.symm)] at hp2
      exact ht.pair_le x p hp2
  · -- busy_eq
    intro x
    by_cases hxi : x = e.philosopher
    · rw [hxi, upd_same, intervalsOf_append_fin _ _ _ rfl hty,
        List.map_append, List.sum_append]
      show (s.philosophers e.philosopher).eating_time +
        (e.time - (s.philosophers e.philosopher).started_at) = _
      rw [ht.busy_eq e.philosopher]
      simp
    · rw [upd_other _ _ _ _ hxi,
        intervalsOf_append_idx _ _ (fun h => hxi h.symm)]
      exact ht.busy_eq x
  · -- req_count
    intro x
    rw [reqCount_append]
    by_cases hxi : x = e.philosopher
    · rw [hxi, upd_same]
      simp only [hty]
      simp
      exact ht.req_count e.philosopher
    · rw [upd_other _ _ _ _ hxi]
      simp only [hty]
      simp
      exact ht.req_count x
  · -- fail_count
    intro x
    rw [failCount_append]
    by_cases hxi : x = e.philosopher
    · rw [hxi, upd_same]
      simp only [hty]
      simp
      exact ht.fail_count e.philosopher
    · rw [upd_other _ _ _ _ hxi]
      simp only [hty]
      simp
      exact ht.fail_count x

theorem invT_afterReqSucc {expo : ℚ → Nat → ℚ} {s : SimState} {e : Event}
    {rest : List Event} (hpos : ∀ r k, 0 < expo r k) (hc : InvCore s)
    (ht : InvT s) (hp : popEarliest s.events = some (e, rest))
    (hty : e.etype = EventTypes.REQUEST)
    (hfree : bothFree s e.philosopher = true) :
    InvT (afterReqSucc expo s e rest) := by
  have hiN : e.philosopher < s.nphils := hc.idx_lt e (popEarliest_mem hp)
  have hmem : e ∈ s.events := popEarliest_mem hp
  have hsub : ∀ x ∈ rest, x ∈ s.events := popEarliest_rest_subset hp
  have hmin : ∀ x ∈ s.events, e.time ≤ x.time := popEarliest_min hp
  have hrest : ∀ ev ∈ rest, ev.philosopher ≠ e.philosopher :=
    rest_no_idx hp (by rw [hc.uniq e.philosopher, if_pos hiN])
  have htle : s.time ≤ e.time := ht.ev_time e hmem
  have hnotS : ¬ eatingP s e.philosopher := not_eating_of_request hc hp hty
  have hreq : ∀ q ∈ (s.philosophers e.philosopher).requests, q < e.time :=
    fun q hq => ht.req_lt_pending e.philosopher e hmem rfl q hq
  have hd := hpos (s.philosophers e.philosopher).mi s.rnd
  have heatI : eatingL
      (rest ++ [(⟨e.philosopher,
        e.time + expo (s.philosophers e.philosopher).mi s.rnd,
        EventTypes.FINISH⟩ : Event)]) e.philosopher :=
    eatingL_append_fin rfl
  refine ⟨?_, ?_, ?_, ?_, ?_, ?_, ?_, ?_, ?_, ?_, ?_, ?_, ?_, ?_, ?_, ?_,
    ?_⟩ <;> simp only [afterReqSucc, eatingP_def]
  · exact le_trans ht.time_nonneg htle
  · -- started_nonneg
    intro x
    by_cases hx : x = e.philosopher
    · rw [hx, upd_same]
      show (0 : ℚ) ≤ e.time
      exact le_trans ht.time_nonneg htle
    · rw [upd_other _ _ _ _ hx]
      exact ht.started_nonneg x
  · -- ev_time
    intro ev hev
    rcases List.mem_append.mp hev with h1 | h1
    · exact hmin ev (hsub ev h1)
    · simp only [List.mem_singleton] at h1
      rw [h1]
      show e.time ≤ e.time + expo (s.philosophers e.philosopher).mi s.rnd
      linarith
  · -- tr_time
    intro en hen
    rcases List.mem_append.mp hen with h1 | h1
    · exact le_trans (ht.tr_time en h1) htle
    · simp only [List.mem_singleton] at h1
      rw [h1]
  · -- tr_idx
    intro en hen
    rcases List.mem_append.mp hen with h1 | h1
    · exact ht.tr_idx en h1
    · simp only [List.mem_singleton] at h1
      rw [h1]
      exact hiN
  · -- tr_started
    intro en hen
    rcases List.mem_append.mp hen with h1 | h1
    · exact ht.tr_started en h1
    · simp only [List.mem_singleton] at h1
      rw [h1]
      exact ht.started_nonneg e.philosopher
  · -- tr_mono
    exact pairwise_append_single ht.tr_mono
      (fun x hx => le_trans (ht.tr_time x hx) htle)
  · -- req_sorted
    intro x
    by_cases hx : x = e.philosopher
    · rw [hx, upd_same]
      show ((s.philosophers e.philosopher).requests ++ [e.time]).Pairwise _
      exact pairwise_append_single (ht.req_sorted e.philosopher) hreq
    · rw [upd_other _ _ _ _ hx]
      exact ht.req_sorted x
  · -- req_lt_pending
    intro x ev hev hevx q hq
    rcases List.mem_append.mp hev with h1 | h1
    · have hxne : x ≠ e.philosopher := by
        rw [← hevx]
        exact hrest ev h1
      rw [upd_other _ _ _ _ hxne] at hq
      exact ht.req_lt_pending x ev (hsub ev h1) hevx q hq
    · simp only [List.mem_singleton] at h1
      rw [h1] at hevx ⊢
      dsimp only at hevx
      rw [← hevx] at hq
      rw [upd_same] at hq
      show q < e.time + expo (s.philosophers e.philosopher).mi s.rnd
      have hq2 : q ∈ (s.philosophers e.philosopher).requests ++ [e.time] := hq
      rcases List.mem_append.mp hq2 with h2 | h2
      · have := hreq q h2
        linarith
      · simp only [List.mem_singleton] at h2
        rw [h2]
        linarith
  · -- started_le_fin
    intro ev hev hevt
    rcases List.mem_append.mp hev with h1 | h1
    · have hne : ev.philosopher ≠ e.philosopher := hrest ev h1
      rw [upd_other _ _ _ _ hne]
      exact ht.started_le_fin ev (hsub ev h1) hevt
    · simp only [List.mem_singleton] at h1
      rw [h1]
      dsimp only
      rw [upd_same]
      show e.time ≤ e.time + expo (s.philosophers e.philosopher).mi s.rnd
      linarith
  · -- lastEnd_started
    intro ev hev hevt
    rcases List.mem_append.mp hev with h1 | h1
    · have hne : ev.philosopher ≠ e.philosopher := hrest ev h1
      rw [upd_other _ _ _ _ hne, intervalsOf_append_req _ _ hty]
      exact ht.lastEnd_started ev (hsub ev h1) hevt
    · simp only [List.mem_singleton] at h1
      rw [h1]
      dsimp only
      rw [upd_same, intervalsOf_append_req _ _ hty]
      show lastEndOf (intervalsOf s.trace e.philosopher) ≤ e.time
      exact le_trans (ht.lastEnd_time e.philosopher hnotS) htle
  · -- lastEnd_time
    intro x hx
    have hxi : x ≠ e.philosopher := by
      intro h
      exact hx (h ▸ heatI)
    rw [intervalsOf_append_req _ _ hty]
    rw [eatingL_append_other _ _ _ hxi] at hx
    have hnot : ¬ eatingP s x :=
      fun hS => hx ((eatingL_rest_iff hp (fun hh => hxi hh.symm)).mpr hS)
    exact le_trans (ht.lastEnd_time x hnot) htle
  · -- chainI
    intro x
    rw [intervalsOf_append_req _ _ hty]
    exact ht.chainI x
  · -- pair_le
    intro x p hp2
    rw [intervalsOf_append_req _ _ hty] at hp2
    exact ht.pair_le x p hp2
  · -- busy_eq
    intro x
    rw [intervalsOf_append_req _ _ hty]
    by_cases hxi : x = e.philosopher
    · rw [hxi, upd_same]
      exact ht.busy_eq e.philosopher
    · rw [upd_other _ _ _ _ hxi]
      exact ht.busy_eq x
  · -- req_count
    intro x
    rw [reqCount_append]
    by_cases hxi : x = e.philosopher
    · rw [hxi, upd_same]
      simp only [hty]
      simp
      exact ht.req_count e.philosopher
    · rw [upd_other _ _ _ _ hxi]
      have hbeq : (e.philosopher == x) = false := by
        simp
        exact fun h => hxi h.symm
      simp [hbeq]
      exact ht.req_count x
  · -- fail_count
    intro x
    rw [failCount_append]
    by_cases hxi : x = e.philosopher
    · rw [hxi, upd_same]
      simp [hfree]
      exact ht.fail_count e.philosopher
    · rw [upd_other _ _ _ _ hxi]
      have hbeq : (e.philosopher == x) = false := by
        simp
        exact fun h => hxi h.symm
      simp [hbeq]
      exact ht.fail_count x

theorem invT_afterReqFail {expo : ℚ → Nat → ℚ} {s : SimState} {e : Event}
    {rest : List Event} (hpos : ∀ r k, 0 < expo r k) (hc : InvCore s)
    (ht : InvT s) (hp : popEarliest s.events = some (e, rest))
    (hty : e.etype = EventTypes.REQUEST)
    (hfree : bothFree s e.philosopher = false) :
    InvT (afterReqFail expo s e rest) := by
  have hiN : e.philosopher < s.nphils := hc.idx_lt e (popEarliest_mem hp)
  have hmem : e ∈ s.events := popEarliest_mem hp
  have hsub : ∀ x ∈ rest, x ∈ s.events := popEarliest_rest_subset hp
  have hmin : ∀ x ∈ s.events, e.time ≤ x.time := popEarliest_min hp
  have hrest : ∀ ev ∈ rest, ev.philosopher ≠ e.philosopher :=
    rest_no_idx hp (by rw [hc.uniq e.philosopher, if_pos hiN])
  have htle : s.time ≤ e.time := ht.ev_time e hmem
  have hnotS : ¬ eatingP s e.philosopher := not_eating_of_request hc hp hty
  have hreq : ∀ q ∈ (s.philosophers e.philosopher).requests, q < e.time :=
    fun q hq => ht.req_lt_pending e.philosopher e hmem rfl q hq
  have hd := hpos (s.philosophers e.philosopher).lambda_i s.rnd
  refine ⟨?_, ?_, ?_, ?_, ?_, ?_, ?_, ?_, ?_, ?_, ?_, ?_, ?_, ?_, ?_, ?_,
    ?_⟩ <;> simp only [afterReqFail, eatingP_def]
  · exact le_trans ht.time_nonneg htle
  · -- started_nonneg
    intro x
    by_cases hx : x = e.philosopher
    · rw [hx, upd_same]
      exact ht.started_nonneg e.philosopher
    · rw [upd_other _ _ _ _ hx]
      exact ht.started_nonneg x
  · -- ev_time
    intro ev hev
    rcases List.mem_append.mp hev with h1 | h1
    · exact hmin ev (hsub ev h1)
    · simp only [List.mem_singleton] at h1
      rw [h1]
      show e.time ≤ e.time + expo (s.philosophers e.philosopher).lambda_i s.rnd
      linarith
  · -- tr_time
    intro en hen
    rcases List.mem_append.mp hen with h1 | h1
    · exact le_trans (ht.tr_time en h1) htle
    · simp only [List.mem_singleton] at h1
      rw [h1]
  · -- tr_idx
    intro en hen
    rcases List.mem_append.mp hen with h1 | h1
    · exact ht.tr_idx en h1
    · simp only [List.mem_singleton] at h1
      rw [h1]
      exact hiN
  · -- tr_started
    intro en hen
    rcases List.mem_append.mp hen with h1 | h1
    · exact ht.tr_started en h1
    · simp only [List.mem_singleton] at h1
      rw [h1]
      exact ht.started_nonneg e.philosopher
  · -- tr_mono
    exact pairwise_append_single ht.tr_mono
      (fun x hx => le_trans (ht.tr_time x hx) htle)
  · -- req_sorted
    intro x
    by_cases hx : x = e.philosopher
    · rw [hx, upd_same]
      show ((s.philosophers e.philosopher).requests ++ [e.time]).Pairwise _
      exact pairwise_append_single (ht.req_sorted e.philosopher) hreq
    · rw [upd_other _ _ _ _ hx]
      exact ht.req_sorted x
  · -- req_lt_pending
    intro x ev hev hevx q hq
    rcases List.mem_append.mp hev with h1 | h1
    · have hxne : x ≠ e.philosopher := by
        rw [← hevx]
        exact hrest ev h1
      rw [upd_other _ _ _ _ hxne] at hq
      exact ht.req_lt_pending x ev (hsub ev h1) hevx q hq
    · simp only [List.mem_singleton] at h1
      rw [h1] at hevx ⊢
      dsimp only at hevx
      rw [← hevx] at hq
      rw [upd_same] at hq
      show q < e.time + expo (s.philosophers e.philosopher).lambda_i s.rnd
      have hq2 : q ∈ (s.philosophers e.philosopher).requests ++ [e.time] := hq
      rcases List.mem_append.mp hq2 with h2 | h2
      · have := hreq q h2
        linarith
      · simp only [List.mem_singleton] at h2
        rw [h2]
        linarith
  · -- started_le_fin
    intro ev hev hevt
    rcases List.mem_append.mp hev with h1 | h1
    · have hne : ev.philosopher ≠ e.philosopher := hrest ev h1
      rw [upd_other _ _ _ _ hne]
      exact ht.started_le_fin ev (hsub ev h1) hevt
    · simp only [List.mem_singleton] at h1
      rw [h1] at hevt
      simp at hevt
  · -- lastEnd_started
    intro ev hev hevt
    rcases List.mem_append.mp hev with h1 | h1
    · have hne : ev.philosopher ≠ e.philosopher := hrest ev h1
      rw [upd_other _ _ _ _ hne, intervalsOf_append_req _ _ hty]
      exact ht.lastEnd_started ev (hsub ev h1) hevt
    · simp only [List.mem_singleton] at h1
      rw [h1] at hevt
      simp at hevt
  · -- lastEnd_time
    intro x hx
    rw [intervalsOf_append_req _ _ hty]
    rw [eatingL_append_req rfl] at hx
    have hnot : ¬ eatingP s x := by
      by_cases hxi : x = e.philosopher
      · rw [hxi]
        exact hnotS
      · exact fun hS =>
          hx ((eatingL_rest_iff hp (fun hh => hxi hh.symm)).mpr hS)
    exact le_trans (ht.lastEnd_time x hnot) htle
  · -- chainI
    intro x
    rw [intervalsOf_append_req _ _ hty]
    exact ht.chainI x
  · -- pair_le
    intro x p hp2
    rw [intervalsOf_append_req _ _ hty] at hp2
    exact ht.pair_le x p hp2
  · -- busy_eq
    intro x
    rw [intervalsOf_append_req _ _ hty]
    by_cases hxi : x = e.philosopher
    · rw [hxi, upd_same]
      exact ht.busy_eq e.philosopher
    · rw [upd_other _ _ _ _ hxi]
      exact ht.busy_eq x
  · -- req_count
    intro x
    rw [reqCount_append]
    by_cases hxi : x = e.philosopher
    · rw [hxi, upd_same]
      simp only [hty]
      simp
      exact ht.req_count e.philosopher
    · rw [upd_other _ _ _ _ hxi]
      have hbeq : (e.philosopher == x) = false := by
        simp
        exact fun h => hxi h.symm
      simp [hbeq]
      exact ht.req_count x
  · -- fail_count
    intro x
    rw [failCount_append]
    by_cases hxi : x = e.philosopher
    · rw [hxi, upd_same]
      simp [hfree, hty]
      exact ht.fail_count e.philosopher
    · rw [upd_other _ _ _ _ hxi]
      have hbeq : (e.philosopher == x) = false := by
        simp
        exact fun h => hxi h.symm
      simp [hbeq]
      exact ht.fail_count x

/-- One loop-body step preserves the timed invariant when all draws are
positive. -/
theorem stepSim_invT {expo : ℚ → Nat → ℚ} {s s' : SimState}
    (hpos : ∀ r k, 0 < expo r k) (hc : InvCore s) (ht : InvT s)
    (h : stepSim expo s = .ok s') : InvT s' := by
  obtain ⟨e, rest, hp⟩ := stepSim_ok_inv h
  cases hty : e.etype with
  | FINISH =>
    rw [stepSim_finish hp hty] at h
    injection h with h
    rw [← h]
    exact invT_afterFinish hpos hc ht hp hty
  | REQUEST =>
    cases hfree : bothFree s e.philosopher with
    | true =>
      rw [stepSim_req_succ hp hty hfree] at h
      injection h with h
      rw [← h]
      exact invT_afterReqSucc hpos hc ht hp hty hfree
    | false =>
      rw [stepSim_req_fail hp hty hfree] at h
      injection h with h
      rw [← h]
      exact invT_afterReqFail hpos hc ht hp hty hfree

/-! ### Invariants hold at the initial state -/

theorem count_seed_idx (n i : Nat) :
    (((List.range n).map
      (fun j => (⟨j, 0, EventTypes.REQUEST⟩ : Event))).countP
      (fun e => e.philosopher == i)) = if i < n then 1 else 0 := by
  induction n with
  | zero => simp
  | succ n ih =>
    rw [List.range_succ, List.map_append, List.countP_append, ih]
    simp only [List.map_cons, List.map_nil, List.countP_cons,
      List.countP_nil]
    rcases Nat.lt_trichotomy i n with h | h | h
    · have h2 : (n == i) = false := by
        simp
        omega
      rw [h2, if_pos h, if_pos (show i < n + 1 by omega)]
      simp
    · have h2 : (n == i) = true := by
        simp
        omega
      rw [h2, if_neg (show ¬ i < n by omega),
        if_pos (show i < n + 1 by omega)]
      simp
    · have h2 : (n == i) = false := by
        simp
        omega
      rw [h2, if_neg (show ¬ i < n by omega),
        if_neg (show ¬ i < n + 1 by omega)]
      simp

theorem count_seed_zero (n : Nat) :
    (((List.range n).map
      (fun j => (⟨j, 0, EventTypes.REQUEST⟩ : Event))).countP
      (fun e => e.time == 0)) = n := by
  induction n with
  | zero => simp
  | succ n ih =>
    rw [List.range_succ, List.map_append, List.countP_append, ih]
    simp

theorem seed_mem_time {n : Nat} {ev : Event}
    (h : ev ∈ (List.range n).map
      (fun j => (⟨j, 0, EventTypes.REQUEST⟩ : Event))) :
    ev.time = 0 ∧ ev.etype = EventTypes.REQUEST := by
  rcases List.mem_map.mp h with ⟨j, _, hj⟩
  rw [← hj]
  exact ⟨rfl, rfl⟩

theorem invCore_init (mi T : ℚ) (lambdas : List ℚ) :
    InvCore (initState mi T lambdas) := by
  have hnoeat : ∀ x, ¬ eatingP (initState mi T lambdas) x := by
    rintro x ⟨ev, hev, _, hevt⟩
    have := (seed_mem_time hev).2
    rw [this] at hevt
    exact absurd hevt (by simp)
  refine ⟨?_, ?_, ?_, ?_, ?_, ?_⟩
  · intro i
    rfl
  · intro i
    rfl
  · intro i
    exact count_seed_idx lambdas.length i
  · intro i _ hi
    exact absurd hi (hnoeat i)
  · intro j _ _ _
    rfl
  · intro i _ hi
    exact absurd hi (hnoeat i)

theorem invT_init (mi T : ℚ) (lambdas : List ℚ) :
    InvT (initState mi T lambdas) := by
  refine ⟨?_, ?_, ?_, ?_, ?_, ?_, ?_, ?_, ?_, ?_, ?_, ?_, ?_, ?_, ?_, ?_,
    ?_⟩
  · exact le_refl 0
  · intro i
    exact le_refl 0
  · intro ev hev
    rw [(seed_mem_time hev).1]
    exact le_refl 0
  · intro en hen
    exact absurd hen (by simp [initState])
  · intro en hen
    exact absurd hen (by simp [initState])
  · intro en hen
    exact absurd hen (by simp [initState])
  · exact List.Pairwise.nil
  · intro i
    exact List.Pairwise.nil
  · intro i ev _ _ q hq
    exact absurd hq (by simp [initState])
  · intro ev hev hevt
    rw [(seed_mem_time hev).2] at hevt
    exact absurd hevt (by simp)
  · intro ev hev hevt
    rw [(seed_mem_time hev).2] at hevt
    exact absurd hevt (by simp)
  · intro i _
    exact le_refl 0
  · intro i
    exact List.chain'_nil
  · intro i p hp2
    exact absurd hp2 (by simp [initState, intervalsOf])
  · intro i
    rfl
  · intro i
    rfl
  · intro i
    rfl

/-! ### Invariants along iterated steps and the fueled loop -/

theorem loopIter_invCore {expo : ℚ → Nat → ℚ} :
    ∀ (k : Nat) {s s' : SimState}, InvCore s →
      loopIter expo k s = .ok s' →
      InvCore s' ∧ s'.nphils = s.nphils ∧ s'.T = s.T := by
  intro k
  induction k with
  | zero =>
    intro s s' hc h
    injection h with h
    rw [← h]
    exact ⟨hc, rfl, rfl⟩
  | succ k ih =>
    intro s s' hc h
    rw [loopIter] at h
    cases hst : stepSim expo s with
    | error err =>
      rw [hst] at h
      exact absurd h (by simp [Except.bind])
    | ok s1 =>
      rw [hst] at h
      simp only [Except.bind] at h
      obtain ⟨hc1, hn1, hT1⟩ := stepSim_invCore hc hst
      obtain ⟨hc', hn', hT'⟩ := ih hc1 h
      exact ⟨hc', hn'.trans hn1, hT'.trans hT1⟩

theorem loopIter_inv {expo : ℚ → Nat → ℚ}
    (hpos : ∀ r k, 0 < expo r k) :
    ∀ (k : Nat) {s s' : SimState}, InvCore s → InvT s →
      loopIter expo k s = .ok s' →
      InvCore s' ∧ InvT s' ∧ s'.nphils = s.nphils ∧ s'.T = s.T := by
  intro k
  induction k with
  | zero =>
    intro s s' hc ht h
    injection h with h
    rw [← h]
    exact ⟨hc, ht, rfl, rfl⟩
  | succ k ih =>
    intro s s' hc ht h
    rw [loopIter] at h
    cases hst : stepSim expo s with
    | error err =>
      rw [hst] at h
      exact absurd h (by simp [Except.bind])
    | ok s1 =>
      rw [hst] at h
      simp only [Except.bind] at h
      obtain ⟨hc1, hn1, hT1⟩ := stepSim_invCore hc hst
      have ht1 := stepSim_invT hpos hc ht hst
      obtain ⟨hc', ht', hn', hT'⟩ := ih hc1 ht1 h
      exact ⟨hc', ht', hn'.trans hn1, hT'.trans hT1⟩

/-- A successful `runFuel` is a cleared version of a state reached by
steps, with both invariants (given positive draws). -/
theorem runFuel_inv {expo : ℚ → Nat → ℚ}
    (hpos : ∀ r k, 0 < expo r k) :
    ∀ (f : Nat) {s s' : SimState}, InvCore s → InvT s →
      runFuel expo f s = .ok s' →
      ∃ s0 : SimState, InvCore s0 ∧ InvT s0 ∧
        s' = { s0 with events := [] } ∧ s0.nphils = s.nphils ∧
        s0.T = s.T := by
  intro f
  induction f with
  | zero =>
    intro s s' hc ht h
    rw [runFuel] at h
    by_cases hlt : s.time < s.T
    · rw [if_pos hlt] at h
      exact absurd h (by simp)
    · rw [if_neg hlt] at h
      injection h with h
      exact ⟨s, hc, ht, h.symm, rfl, rfl⟩
  | succ f ih =>
    intro s s' hc ht h
    rw [runFuel] at h
    by_cases hlt : s.time < s.T
    · rw [if_pos hlt] at h
      cases hst : stepSim expo s with
      | error err =>
        rw [hst] at h
        exact absurd h (by simp [Except.bind])
      | ok s1 =>
        rw [hst] at h
        simp only [Except.bind] at h
        obtain ⟨hc1, hn1, hT1⟩ := stepSim_invCore hc hst
        have ht1 := stepSim_invT hpos hc ht hst
        obtain ⟨s0, hc0, ht0, heq, hn0, hT0⟩ := ih hc1 ht1 h
        exact ⟨s0, hc0, ht0, heq, hn0.trans hn1, hT0.trans hT1⟩
    · rw [if_neg hlt] at h
      injection h with h
      exact ⟨s, hc, ht, h.symm, rfl, rfl⟩

/-! ### Shape of one step, trace accumulation, and the fueled loop -/

theorem stepSim_shape {expo : ℚ → Nat → ℚ} {s s' : SimState}
    (h : stepSim expo s = .ok s') :
    ∃ e rest ne, popEarliest s.events = some (e, rest) ∧
      s'.time = e.time ∧ s'.T = s.T ∧ s'.nphils = s.nphils ∧
      s'.events = rest ++ [ne] ∧
      (∃ r, ne.time = e.time + expo r s.rnd) ∧
      ne.philosopher = e.philosopher ∧
      ∃ en : TraceEntry, s'.trace = s.trace ++ [en] ∧ en.time = e.time := by
  obtain ⟨e, rest, hp⟩ := stepSim_ok_inv h
  cases hty : e.etype with
  | FINISH =>
    rw [stepSim_finish hp hty] at h
    injection h with h
    rw [← h]
    exact ⟨e, rest, _, hp, rfl, rfl, rfl, rfl,
      ⟨(s.philosophers e.philosopher).lambda_i, rfl⟩, rfl, _, rfl, rfl⟩
  | REQUEST =>
    cases hfree : bothFree s e.philosopher with
    | true =>
      rw [stepSim_req_succ hp hty hfree] at h
      injection h with h
      rw [← h]
      exact ⟨e, rest, _, hp, rfl, rfl, rfl, rfl,
        ⟨(s.philosophers e.philosopher).mi, rfl⟩, rfl, _, rfl, rfl⟩
    | false =>
      rw [stepSim_req_fail hp hty hfree] at h
      injection h with h
      rw [← h]
      exact ⟨e, rest, _, hp, rfl, rfl, rfl, rfl,
        ⟨(s.philosophers e.philosopher).lambda_i, rfl⟩, rfl, _, rfl, rfl⟩

theorem stepSim_events_len {expo : ℚ → Nat → ℚ} {s s' : SimState}
    (h : stepSim expo s = .ok s') :
    s'.events.length = s.events.length := by
  obtain ⟨e, rest, ne, hp, _, _, _, hev, _, _, _⟩ := stepSim_shape h
  have hlen : (e :: rest).length = s.events.length :=
    (popEarliest_perm hp).length_eq
  rw [hev]
  simp at hlen ⊢
  omega

theorem loopIter_trace {expo : ℚ → Nat → ℚ} :
    ∀ (k : Nat) {s s' : SimState}, loopIter expo k s = .ok s' →
      ∃ L, s'.trace = s.trace ++ L ∧ L.length = k ∧
        s'.events.length = s.events.length ∧ s'.T = s.T ∧
        s'.nphils = s.nphils := by
  intro k
  induction k with
  | zero =>
    intro s s' h
    injection h with h
    rw [← h]
    exact ⟨[], by simp, rfl, rfl, rfl, rfl⟩
  | succ k ih =>
    intro s s' h
    rw [loopIter] at h
    cases hst : stepSim expo s with
    | error err =>
      rw [hst] at h
      exact absurd h (by simp [Except.bind])
    | ok s1 =>
      rw [hst] at h
      simp only [Except.bind] at h
      obtain ⟨L1, htr1, hlen1, hev1, hT1, hn1⟩ := ih h
      obtain ⟨_, _, _, _, _, hT0, hn0, _, _, _, en, htr0, _⟩ :=
        stepSim_shape hst
      refine ⟨en :: L1, ?_, by simp [hlen1], ?_, hT1.trans hT0,
        hn1.trans hn0⟩
      · rw [htr1, htr0]
        simp
      · rw [hev1, stepSim_events_len hst]

/-- Full specification of the fueled horizon loop, by induction on the
fuel: the final state is cleared, the horizon has been reached, every
loop-processed event except the last one has time `< T`, and the last
processed event's time is the final clock. -/
theorem runFuel_spec {expo : ℚ → Nat → ℚ} :
    ∀ (f : Nat) {s s' : SimState}, runFuel expo f s = .ok s' →
      s'.T = s.T ∧ s'.events = [] ∧ s.T ≤ s'.time ∧
      ∃ L, s'.trace = s.trace ++ L ∧
        (∀ en ∈ L.dropLast, en.time < s.T) ∧
        (L = [] → s' = { s with events := [] }) ∧
        (¬ s.time < s.T → L = []) ∧
        (∀ en, L.getLast? = some en → en.time = s'.time) := by
  intro f
  induction f with
  | zero =>
    intro s s' h
    rw [runFuel] at h
    by_cases hlt : s.time < s.T
    · rw [if_pos hlt] at h
      exact absurd h (by simp)
    · rw [if_neg hlt] at h
      injection h with h
      refine ⟨by rw [← h], by rw [← h], by rw [← h]; exact not_lt.mp hlt,
        [], by rw [← h]; simp, by simp, fun _ => h.symm, fun _ => rfl,
        by simp⟩
  | succ f ih =>
    intro s s' h
    rw [runFuel] at h
    by_cases hlt : s.time < s.T
    · rw [if_pos hlt] at h
      cases hst : stepSim expo s with
      | error err =>
        rw [hst] at h
        exact absurd h (by simp [Except.bind])
      | ok s1 =>
        rw [hst] at h
        simp only [Except.bind] at h
        obtain ⟨hT', hev', hTle', L1, htr1, hdl1, hnil1, hstop1, hlast1⟩ :=
          ih h
        obtain ⟨e, rest, ne, hp, ht1time, hT0, hn0, _, _, _, en, htr0,
          hentime⟩ := stepSim_shape hst
        refine ⟨hT'.trans hT0, hev', by rw [← hT0]; exact hTle',
          en :: L1, ?_, ?_, ?_, ?_, ?_⟩
        · rw [htr1, htr0]
          simp
        · -- dropLast times below T
          intro x hx
          rcases L1 with _ | ⟨a, L2⟩
          · simp at hx
          · have hdl : (en :: a :: L2).dropLast = en :: (a :: L2).dropLast :=
              rfl
            rw [hdl] at hx
            have hs1lt : s1.time < s1.T := by
              by_contra hnot
              exact absurd (hstop1 hnot) (by simp)
            rcases List.mem_cons.mp hx with h2 | h2
            · rw [h2, hentime, ← ht1time]
              rw [hT0] at hs1lt
              exact hs1lt
            · have hx2 := hdl1 x h2
              rw [hT0] at hx2
              exact hx2
        · intro hcontra
          exact absurd hcontra (by simp)
        · intro hcontra
          exact absurd hlt hcontra
        · intro x hx
          rcases L1 with _ | ⟨a, L2⟩
          · simp at hx
            have hs' := hnil1 rfl
            rw [← hx, hentime, hs']
            show e.time = s1.time
            exact ht1time.symm
          · rw [List.getLast?_cons_cons] at hx
            exact hlast1 x hx
    · rw [if_neg hlt] at h
      injection h with h
      refine ⟨by rw [← h], by rw [← h], by rw [← h]; exact not_lt.mp hlt,
        [], by rw [← h]; simp, by simp, fun _ => h.symm, fun _ => rfl,
        by simp⟩

/-- During the seeding phase all processed events have time `0`, so the
clock stays at `0` (draws being positive, follow-up events are
strictly later). -/
theorem loopIter_zero_time {expo : ℚ → Nat → ℚ}
    (hpos : ∀ r k, 0 < expo r k) :
    ∀ (j : Nat) {s s' : SimState}, InvCore s → InvT s → s.time = 0 →
      j ≤ s.events.countP (fun e => e.time == 0) →
      loopIter expo j s = .ok s' → s'.time = 0 := by
  intro j
  induction j with
  | zero =>
    intro s s' _ _ h0 _ h
    injection h with h
    rw [← h]
    exact h0
  | succ j ih =>
    intro s s' hc ht h0 hcnt h
    rw [loopIter] at h
    cases hst : stepSim expo s with
    | error err =>
      rw [hst] at h
      exact absurd h (by simp [Except.bind])
    | ok s1 =>
      rw [hst] at h
      simp only [Except.bind] at h
      obtain ⟨e, rest, ne, hp, ht1, hT0, hn0, hev, ⟨r, hner⟩, hnep, en,
        htr, hent⟩ := stepSim_shape hst
      have hzero : ∃ x ∈ s.events, x.time = 0 := by
        have hc0 : 0 < s.events.countP (fun e => e.time == 0) := by omega
        obtain ⟨x, hx, hpx⟩ := List.countP_pos.mp hc0
        exact ⟨x, hx, by simpa using hpx⟩
      obtain ⟨x0, hx0, hx0t⟩ := hzero
      have hemin : e.time ≤ 0 := hx0t ▸ popEarliest_min hp x0 hx0
      have hege : 0 ≤ e.time := h0 ▸ ht.ev_time e (popEarliest_mem hp)
      have het : e.time = 0 := le_antisymm hemin hege
      have hs1time : s1.time = 0 := by rw [ht1, het]
      have hcnt1 : j ≤ s1.events.countP (fun e => e.time == 0) := by
        have hperm := (popEarliest_perm hp).countP_eq
          (fun e => e.time == 0)
        rw [List.countP_cons] at hperm
        have hpe : (e.time == 0) = true := by simpa using het
        rw [hpe] at hperm
        have hnet : (ne.time == 0) = false := by
          have hr := hpos r s.rnd
          have hgt : 0 < ne.time := by
            rw [hner, het]
            linarith
          simp
          linarith
        rw [hev, List.countP_append]
        have hone : List.countP (fun e => e.time == 0) [ne] = 0 := by
          simp [List.countP_cons, hnet]
        rw [hone]
        simp at hperm ⊢
        omega
      exact ih (stepSim_invCore hc hst).1 (stepSim_invT hpos hc ht hst)
        hs1time hcnt1 h

/-- Unfolding of `runSim` into a seeding phase with known clock, trace
length and horizon, followed by the fueled loop. -/
theorem runSim_split {expo : ℚ → Nat → ℚ}
    (hpos : ∀ r k, 0 < expo r k) {mi T : ℚ} {lambdas : List ℚ}
    {fuel : Nat} {s' : SimState}
    (h : runSim expo mi T lambdas fuel = .ok s') :
    ∃ sd : SimState,
      loopIter expo lambdas.length (initState mi T lambdas) = .ok sd ∧
      InvCore sd ∧ InvT sd ∧ sd.time = 0 ∧
      sd.trace.length = lambdas.length ∧ sd.T = T ∧
      sd.nphils = lambdas.length ∧ runFuel expo fuel sd = .ok s' := by
  rw [runSim] at h
  cases hsd : loopIter expo lambdas.length (initState mi T lambdas) with
  | error err =>
    rw [hsd] at h
    exact absurd h (by simp [Except.bind])
  | ok sd =>
    rw [hsd] at h
    simp only [Except.bind] at h
    obtain ⟨hcd, htd, hn, hT⟩ :=
      loopIter_inv hpos lambdas.length (invCore_init mi T lambdas)
        (invT_init mi T lambdas) hsd
    have hz : sd.time = 0 := by
      refine loopIter_zero_time hpos lambdas.length
        (invCore_init mi T lambdas) (invT_init mi T lambdas) rfl ?_ hsd
      show lambdas.length ≤
        ((initState mi T lambdas).events.countP (fun e => e.time == 0))
      rw [show (initState mi T lambdas).events =
        (List.range lambdas.length).map
          (fun i => (⟨i, 0, EventTypes.REQUEST⟩ : Event)) from rfl]
      rw [count_seed_zero]
    obtain ⟨L, htr, hlen, _, _, _⟩ :=
      loopIter_trace lambdas.length hsd
    refine ⟨sd, rfl, hcd, htd, hz, ?_, hT, hn, h⟩
    rw [htr]
    rw [show (initState mi T lambdas).trace = [] from rfl]
    simp [hlen]

/-- A successful complete run, decomposed: the final state is the
cleared version of a state satisfying both invariants. -/
theorem runSim_inv {expo : ℚ → Nat → ℚ}
    (hpos : ∀ r k, 0 < expo r k) {mi T : ℚ} {lambdas : List ℚ}
    {fuel : Nat} {s' : SimState}
    (h : runSim expo mi T lambdas fuel = .ok s') :
    ∃ s0 : SimState, InvCore s0 ∧ InvT s0 ∧
      s' = { s0 with events := [] } ∧ s0.nphils = lambdas.length ∧
      s0.T = T := by
  obtain ⟨sd, _, hcd, htd, _, _, hT, hn, hrf⟩ := runSim_split hpos h
  obtain ⟨s0, hc0, ht0, heq, hn0, hT0⟩ := runFuel_inv hpos fuel hcd htd hrf
  exact ⟨s0, hc0, ht0, heq, hn0.trans hn, hT0.trans hT⟩

/-! ### Derived facts used by the claims -/

/-- In an invariant state, a held chopstick's (ghost) holder is an
adjacent, currently-eating philosopher. -/
theorem holder_eating {s : SimState} (hc : InvCore s) {j x : Nat}
    (hj : j < s.nphils) (h : (s.chopsticks j).holder = some x) :
    eatingP s x := by
  by_cases h1 : eatingP s j
  · have hcj := (hc.chop_eat j hj h1).1
    rw [hcj] at h
    injection h with h
    rw [← h]
    exact h1
  · by_cases h2 : eatingP s ((j + s.nphils - 1) % s.nphils)
    · have hprev := hc.chop_eat _ (ring_prev_lt hj) h2
      have hsp := ring_succ_prev hj
      rw [hsp] at hprev
      rw [hprev.2] at h
      injection h with h
      rw [← h]
      exact h2
    · rw [hc.chop_free j hj h1 h2] at h
      exact absurd h (by simp)

theorem pairwise_of_chain_le {l : List (ℚ × ℚ)}
    (hch : l.Chain' (fun a b => a.2 ≤ b.1))
    (hs : ∀ p ∈ l, p.1 ≤ p.2) :
    l.Pairwise (fun a b => a.2 ≤ b.1) := by
  induction l with
  | nil => exact List.Pairwise.nil
  | cons a l ih =>
    have hp := ih hch.tail (fun p hp => hs p (List.mem_cons_of_mem _ hp))
    refine List.pairwise_cons.mpr ⟨?_, hp⟩
    intro b hb
    rcases l with _ | ⟨c, l2⟩
    · simp at hb
    · have hac : a.2 ≤ c.1 := (List.chain'_cons.mp hch).1
      rcases List.mem_cons.mp hb with h1 | h1
      · rw [h1]
        exact hac
      · have hcb : c.2 ≤ b.1 := (List.pairwise_cons.mp hp).1 b h1
        have hcc : c.1 ≤ c.2 := hs c (by simp)
        linarith

theorem sum_sub_le {l : List (ℚ × ℚ)} {c : ℚ}
    (h : ∀ p ∈ l, p.2 - p.1 ≤ c) :
    (l.map (fun p => p.2 - p.1)).sum ≤ l.length * c := by
  induction l with
  | nil => simp
  | cons a l ih =>
    simp only [List.map_cons, List.sum_cons, List.length_cons]
    have h1 := h a (List.mem_cons_self _ _)
    have h2 := ih (fun p hp => h p (List.mem_cons_of_mem _ hp))
    have h3 : ((l.length + 1 : Nat) : ℚ) * c = (l.length : ℚ) * c + c := by
      push_cast
      ring
    rw [h3]
    linarith

theorem mem_intervalsOf {tr : List TraceEntry} {i : Nat} {p : ℚ × ℚ}
    (h : p ∈ intervalsOf tr i) :
    ∃ en ∈ tr, p = (en.started, en.time) := by
  unfold intervalsOf at h
  obtain ⟨en, hen, hp⟩ := List.mem_map.mp h
  exact ⟨en, (List.mem_filter.mp hen).1, hp.symm⟩

theorem intervalsOf_length (tr : List TraceEntry) (i : Nat) :
    (intervalsOf tr i).length =
      tr.countP (fun en => en.philosopher == i &&
        en.etype == EventTypes.FINISH) := by
  unfold intervalsOf
  rw [List.length_map]
  exact (List.countP_eq_length_filter _ _).symm

theorem finCount_partition {tr : List TraceEntry} {n : Nat}
    (h : ∀ en ∈ tr, en.philosopher < n) :
    ∑ i ∈ Finset.range n,
      tr.countP (fun en => en.philosopher == i &&
        en.etype == EventTypes.FINISH) = finCount tr :=
  countP_partition tr (fun en => en.philosopher)
    (fun en => en.etype == EventTypes.FINISH) n h

/-- The conservation bound that actually holds: total busy time is at
most the number of FINISH dispatches times the final clock. -/
theorem busySum_le_finCount {s : SimState} (ht : InvT s) :
    busySum s ≤ (finCount s.trace : ℚ) * s.time := by
  unfold busySum
  have hstep1 : ∀ i ∈ Finset.range s.nphils,
      (s.philosophers i).eating_time ≤
        ((intervalsOf s.trace i).length : ℚ) * s.time := by
    intro i _
    rw [ht.busy_eq i]
    refine sum_sub_le ?_
    intro p hp
    obtain ⟨en, hen, hpe⟩ := mem_intervalsOf hp
    have h1 : p.2 ≤ s.time := by
      rw [hpe]
      exact ht.tr_time en hen
    have h2 : 0 ≤ p.1 := by
      rw [hpe]
      exact ht.tr_started en hen
    linarith
  calc ∑ i ∈ Finset.range s.nphils, (s.philosophers i).eating_time
      ≤ ∑ i ∈ Finset.range s.nphils,
          ((intervalsOf s.trace i).length : ℚ) * s.time :=
        Finset.sum_le_sum hstep1
    _ = ((∑ i ∈ Finset.range s.nphils,
          (intervalsOf s.trace i).length : Nat) : ℚ) * s.time := by
        rw [← Finset.sum_mul, Nat.cast_sum]
    _ = (finCount s.trace : ℚ) * s.time := by
        have hsum : ∑ i ∈ Finset.range s.nphils,
            (intervalsOf s.trace i).length = finCount s.trace := by
          have hcong : ∀ i ∈ Finset.range s.nphils,
              (intervalsOf s.trace i).length =
              s.trace.countP (fun en => en.philosopher == i &&
                en.etype == EventTypes.FINISH) :=
            fun i _ => intervalsOf_length s.trace i
          rw [Finset.sum_congr rfl hcong]
          exact finCount_partition ht.tr_idx
        rw [hsum]

theorem stepSim_no_empty {expo : ℚ → Nat → ℚ} {s : SimState}
    (hc : InvCore s) (hn : 1 ≤ s.nphils) :
    ∃ s1, stepSim expo s = .ok s1 := by
  have hne : s.events ≠ [] := by
    intro h0
    have hu := hc.uniq 0
    rw [h0, if_pos (show 0 < s.nphils by omega)] at hu
    simp at hu
  obtain ⟨e, rest, hp⟩ := popEarliest_some hne
  exact ⟨_, by rw [stepSim, hp]⟩

theorem loopIter_no_error {expo : ℚ → Nat → ℚ} :
    ∀ (k : Nat) {s : SimState}, InvCore s → 1 ≤ s.nphils →
      ∃ s', loopIter expo k s = .ok s' := by
  intro k
  induction k with
  | zero =>
    intro s _ _
    exact ⟨s, rfl⟩
  | succ k ih =>
    intro s hc hn
    obtain ⟨s1, hst⟩ := stepSim_no_empty hc hn
    obtain ⟨hc1, hn1, _⟩ := stepSim_invCore hc hst
    obtain ⟨s', hit⟩ := ih hc1 (by omega)
    exact ⟨s', by rw [loopIter, hst]; exact hit⟩

theorem runFuel_no_empty {expo : ℚ → Nat → ℚ} :
    ∀ (f : Nat) {s : SimState}, InvCore s → 1 ≤ s.nphils →
      runFuel expo f s ≠ .error .emptyHeap := by
  intro f
  induction f with
  | zero =>
    intro s _ _ h
    rw [runFuel] at h
    by_cases hlt : s.time < s.T
    · rw [if_pos hlt] at h
      injection h with h
      exact absurd h (by simp)
    · rw [if_neg hlt] at h
      exact absurd h (by simp)
  | succ f ih =>
    intro s hc hn h
    rw [runFuel] at h
    by_cases hlt : s.time < s.T
    · rw [if_pos hlt] at h
      obtain ⟨s1, hst⟩ := stepSim_no_empty hc hn
      rw [hst] at h
      simp only [Except.bind] at h
      obtain ⟨hc1, hn1, _⟩ := stepSim_invCore hc hst
      exact ih hc1 (by omega) h
    · rw [if_neg hlt] at h
      exact absurd h (by simp)

/-! ### The command-line validation layer (`__main__` block) -/

/-- Parsed command-line arguments, as produced by `argparse`: `-n` and
`-T` are ints (defaults 5 and 500); `-mi` and `-lambdas` are optional. -/
structure Args where
  n : Int
  T : Int
  mi : Option ℚ
  lambdas : Option (List ℚ)
deriving DecidableEq, Repr

/-- The four `ValueError`s the `__main__` block can raise. -/
inductive VError where
  | badN
  | badT
  | badMi
  | badLambdas
deriving DecidableEq, Repr

/-- Python truthiness of `args.mi` (`None` and `0.0` are falsy). -/
def truthyF : Option ℚ → Bool
  | none => false
  | some x => x != 0

/-- Python truthiness of `args.lambdas` (`None` and `[]` are falsy). -/
def truthyL : Option (List ℚ) → Bool
  | none => false
  | some l => !l.isEmpty

/-- The `__main__` validation block: `if args.lambdas: args.n =
len(args.lambdas)`, then the four sequential checks, each raising a
`ValueError`.  Returns the (possibly updated) args and the first error
raised, `none` when validation passes and the simulation is started. -/
def validate (a : Args) : Args × Option VError :=
  let a := if truthyL a.lambdas then
    { a with n := ((a.lambdas.getD []).length : Int) } else a
  if a.n < 2 ∨ a.n % 2 ≠ 1 then (a, some .badN)
  else if a.T < 1 then (a, some .badT)
  else if truthyF a.mi = true ∧ (a.mi.getD 0) ≤ 0 then (a, some .badMi)
  else if truthyL a.lambdas = true ∧
      (a.lambdas.getD []).any (fun x => decide (x ≤ 0)) then
    (a, some .badLambdas)
  else (a, none)

/-! ### Concrete draw sources for witnesses and counterexamples -/

/-- All-ones draw source (a legitimate positive draw sequence). -/
def expo1 : ℚ → Nat → ℚ := fun _ _ => 1

/-- Draw source of the conservation counterexample: the first
`expovariate` call (philosopher 0's service time) returns 100, all
later calls return 200. -/
def expoC9 : ℚ → Nat → ℚ := fun _ k => if k = 0 then 100 else 200

/-! ### The claims -/

/-- C1: an Actor dispatched a REQUEST event at time `t` first appends
`t` to its request log; then, if both its chopsticks are free, it
acquires both (their ghost holder becomes the actor), sets
`started_at = t`, leaves `failed_attempts` unchanged and returns exactly
one FINISH event for itself at `t + d` with `d = expovariate(mi)` (the
service-rate source) and `d ≥ 0`; otherwise it increments
`failed_attempts` by exactly one, acquires nothing (the chopstick array
is unchanged), leaves `started_at` unchanged and returns exactly one new
REQUEST event for itself at `t + d'` with `d' = expovariate(lambda_i)`
(the request-rate source) and `d' ≥ 0`. -/
theorem c1_request_handler (expo : ℚ → Nat → ℚ)
    (hnn : ∀ r k, 0 ≤ expo r k) (s : SimState) (i : Nat) (t : ℚ) :
    ((request expo s i t).1.philosophers i).requests =
      (s.philosophers i).requests ++ [t] ∧
    (bothFree s i = true →
      ((request expo s i t).1.chopsticks
        (s.philosophers i).left_chopstick).holder = some i ∧
      ((request expo s i t).1.chopsticks
        (s.philosophers i).right_chopstick).holder = some i ∧
      ((request expo s i t).1.philosophers i).started_at = t ∧
      ((request expo s i t).1.philosophers i).failed_attempts =
        (s.philosophers i).failed_attempts ∧
      (request expo s i t).2 =
        ⟨i, t + expo (s.philosophers i).mi s.rnd, EventTypes.FINISH⟩ ∧
      t ≤ (request expo s i t).2.time) ∧
    (bothFree s i = false →
      ((request expo s i t).1.philosophers i).failed_attempts =
        (s.philosophers i).failed_attempts + 1 ∧
      (request expo s i t).1.chopsticks = s.chopsticks ∧
      ((request expo s i t).1.philosophers i).started_at =
        (s.philosophers i).started_at ∧
      (request expo s i t).2 =
        ⟨i, t + expo (s.philosophers i).lambda_i s.rnd,
          EventTypes.REQUEST⟩ ∧
      t ≤ (request expo s i t).2.time) := by
  cases hfree : bothFree s i with
  | true =>
    have hfb : bothFree s i = true := hfree
    rw [bothFree, Bool.and_eq_true] at hfree
    have hru : request expo s i t =
        ({ s with
            philosophers := upd s.philosophers i
              { s.philosophers i with
                requests := (s.philosophers i).requests ++ [t],
                started_at := t },
            chopsticks := upd (upd s.chopsticks
              (s.philosophers i).left_chopstick ⟨some i⟩)
              (s.philosophers i).right_chopstick ⟨some i⟩,
            rnd := s.rnd + 1 },
         ⟨i, t + expo (s.philosophers i).mi s.rnd, .FINISH⟩) := by
      rw [request]
      simp only [hfree.1, hfree.2, Bool.and_self, if_pos]
      rfl
    rw [hru]
    refine ⟨by simp, fun _ => ⟨?_, by simp, by simp, by simp, rfl, ?_⟩,
      fun hcontra => ?_⟩
    · show ((upd (upd s.chopsticks (s.philosophers i).left_chopstick
          ⟨some i⟩) (s.philosophers i).right_chopstick ⟨some i⟩)
          ((s.philosophers i).left_chopstick)).holder = some i
      by_cases hlr : (s.philosophers i).left_chopstick =
          (s.philosophers i).right_chopstick
      · rw [hlr, upd_same]
      · rw [upd_other _ _ _ _ hlr, upd_same]
    · show t ≤ t + expo (s.philosophers i).mi s.rnd
      have := hnn (s.philosophers i).mi s.rnd
      linarith
    · exact absurd hcontra (by simp)
  | false =>
    have hfb : bothFree s i = false := hfree
    rw [bothFree] at hfree
    have hru : request expo s i t =
        ({ s with
            philosophers := upd s.philosophers i
              { s.philosophers i with
                requests := (s.philosophers i).requests ++ [t],
                failed_attempts :=
                  (s.philosophers i).failed_attempts + 1 },
            rnd := s.rnd + 1 },
         ⟨i, t + expo (s.philosophers i).lambda_i s.rnd, .REQUEST⟩) := by
      rw [request]
      simp only [hfree]
      rfl
    rw [hru]
    refine ⟨by simp, fun hcontra => ?_,
      fun _ => ⟨by simp, rfl, by simp, rfl, ?_⟩⟩
    · exact absurd hcontra (by simp)
    · show t ≤ t + expo (s.philosophers i).lambda_i s.rnd
      have := hnn (s.philosophers i).lambda_i s.rnd
      linarith

section
attribute [local semireducible] Rat.add Rat.sub Rat.mul Rat.inv

/-- Closed witness for C1: both branches exercised on a concrete state
(the initial 3-philosopher state: philosopher 0 succeeds; after that,
philosopher 1 fails). -/
theorem c1_request_handler_witness :
    ((request expo1 (initState 1 2 [1, 1, 1]) 0 0).1.philosophers
      0).requests = ((initState 1 2 [1, 1, 1]).philosophers
        0).requests ++ [0] :=
  (c1_request_handler expo1 (fun _ _ => le_of_lt one_pos)
    (initState 1 2 [1, 1, 1]) 0 0).1

/-- C2: an Actor dispatched a FINISH event at time `t` while holding
both adjacent chopsticks releases both (both become free), adds exactly
`t - started_at` to its accumulated eating time, and returns exactly one
new REQUEST event for itself at `t + d` with `d = expovariate(lambda_i)`
(the request-rate source) and `d ≥ 0`; `failed_attempts` and the request
log are unchanged. -/
theorem c2_finish_handler (expo : ℚ → Nat → ℚ)
    (hnn : ∀ r k, 0 ≤ expo r k) (s : SimState) (i : Nat) (t : ℚ)
    (hl : (s.chopsticks (s.philosophers i).left_chopstick).holder =
      some i)
    (hr : (s.chopsticks (s.philosophers i).right_chopstick).holder =
      some i) :
    ((finish expo s i t).1.chopsticks
      (s.philosophers i).left_chopstick).is_free = true ∧
    ((finish expo s i t).1.chopsticks
      (s.philosophers i).right_chopstick).is_free = true ∧
    ((finish expo s i t).1.philosophers i).eating_time =
      (s.philosophers i).eating_time +
        (t - (s.philosophers i).started_at) ∧
    (finish expo s i t).2 =
      ⟨i, t + expo (s.philosophers i).lambda_i s.rnd,
        EventTypes.REQUEST⟩ ∧
    t ≤ (finish expo s i t).2.time ∧
    ((finish expo s i t).1.philosophers i).failed_attempts =
      (s.philosophers i).failed_attempts ∧
    ((finish expo s i t).1.philosophers i).requests =
      (s.philosophers i).requests := by
  have hfu : finish expo s i t =
      ({ s with
          philosophers := upd s.philosophers i
            { s.philosophers i with
              eating_time := (s.philosophers i).eating_time +
                (t - (s.philosophers i).started_at) },
          chopsticks := upd (upd s.chopsticks
            (s.philosophers i).left_chopstick ⟨none⟩)
            (s.philosophers i).right_chopstick ⟨none⟩,
          rnd := s.rnd + 1 },
       ⟨i, t + expo (s.philosophers i).lambda_i s.rnd, .REQUEST⟩) := by
    rw [finish]
    rfl
  rw [hfu]
  refine ⟨?_, ?_, by simp, rfl, ?_, by simp, by simp⟩
  · show ((upd (upd s.chopsticks (s.philosophers i).left_chopstick
        ⟨none⟩) (s.philosophers i).right_chopstick ⟨none⟩)
        ((s.philosophers i).left_chopstick)).is_free = true
    by_cases hlr : (s.philosophers i).left_chopstick =
        (s.philosophers i).right_chopstick
    · rw [hlr, upd_same]
      rfl
    · rw [upd_other _ _ _ _ hlr, upd_same]
      rfl
  · show ((upd (upd s.chopsticks (s.philosophers i).left_chopstick
        ⟨none⟩) (s.philosophers i).right_chopstick ⟨none⟩)
        ((s.philosophers i).right_chopstick)).is_free = true
    rw [upd_same]
    rfl
  · show t ≤ t + expo (s.philosophers i).lambda_i s.rnd
    have := hnn (s.philosophers i).lambda_i s.rnd
    linarith

/-- Closed witness for C2 at a concrete holding state: philosopher 0 of
the seeded 3-philosopher simulation holds chopsticks 0 and 1. -/
theorem c2_finish_handler_witness :
    ((finish expo1 (getOk (loopIter expo1 3 (initState 1 2 [1, 1, 1])))
      0 1).1.chopsticks
        ((getOk (loopIter expo1 3 (initState 1 2 [1, 1, 1]))).philosophers
          0).left_chopstick).is_free = true :=
  (c2_finish_handler expo1 (fun _ _ => le_of_lt one_pos)
    (getOk (loopIter expo1 3 (initState 1 2 [1, 1, 1]))) 0 1
    (by decide) (by decide)).1

end

/-- C6: for every constructed Simulation, actor `i` references
chopstick `i` on its left and chopstick `(i+1) mod N` on its right; in
particular for `N = 5`, actor 3 has left 3 and right 4, and actor 4 has
left 4 and right 0 (wraparound). -/
theorem c6_ring_topology (mi T : ℚ) (lambdas : List ℚ) :
    (∀ i, ((initState mi T lambdas).philosophers i).left_chopstick = i ∧
      ((initState mi T lambdas).philosophers i).right_chopstick =
        (i + 1) % lambdas.length) ∧
    (∀ l0 l1 l2 l3 l4 : ℚ,
      ((initState mi T [l0, l1, l2, l3, l4]).philosophers
        3).left_chopstick = 3 ∧
      ((initState mi T [l0, l1, l2, l3, l4]).philosophers
        3).right_chopstick = 4 ∧
      ((initState mi T [l0, l1, l2, l3, l4]).philosophers
        4).left_chopstick = 4 ∧
      ((initState mi T [l0, l1, l2, l3, l4]).philosophers
        4).right_chopstick = 0) :=
  ⟨fun i => ⟨rfl, rfl⟩, fun _ _ _ _ _ =>
    ⟨rfl, by simp [initState], rfl, by simp [initState]⟩⟩

/-- C3: in every state reachable by the event-dispatch step relation
from the initial seeding, (a) each chopstick records at most one
holder, (b) a philosopher holds both its adjacent chopsticks exactly
when it is EATING (has a pending FINISH event) and otherwise holds
neither — never exactly one, and (c) two distinct eating philosophers
never share a chopstick (mutual exclusion of the resource in the
picked-up-and-not-put-down sense). -/
theorem c3_resource_holding (expo : ℚ → Nat → ℚ) (mi T : ℚ)
    (lambdas : List ℚ) (k : Nat) (s : SimState)
    (h : loopIter expo k (initState mi T lambdas) = .ok s) :
    (∀ j i i', (s.chopsticks j).holder = some i →
      (s.chopsticks j).holder = some i' → i = i') ∧
    (∀ i, i < s.nphils →
      ((((s.chopsticks (s.philosophers i).left_chopstick).holder =
          some i ∧
        (s.chopsticks (s.philosophers i).right_chopstick).holder =
          some i) ↔ eatingP s i) ∧
       (((s.chopsticks (s.philosophers i).left_chopstick).holder =
          some i ∧
        (s.chopsticks (s.philosophers i).right_chopstick).holder =
          some i) ∨
        ((s.chopsticks (s.philosophers i).left_chopstick).holder ≠
          some i ∧
        (s.chopsticks (s.philosophers i).right_chopstick).holder ≠
          some i)))) ∧
    (∀ i i' j, i < s.nphils → i' < s.nphils → i ≠ i' → eatingP s i →
      eatingP s i' →
      (j = (s.philosophers i).left_chopstick ∨
        j = (s.philosophers i).right_chopstick) →
      ¬ (j = (s.philosophers i').left_chopstick ∨
        j = (s.philosophers i').right_chopstick)) := by
  obtain ⟨hc, _, _⟩ := loopIter_invCore k (invCore_init mi T lambdas) h
  refine ⟨?_, ?_, ?_⟩
  · intro j i i' h1 h2
    rw [h1] at h2
    injection h2
  · intro i hiN
    have hiff : ((s.chopsticks (s.philosophers i).left_chopstick).holder =
        some i ∧
        (s.chopsticks (s.philosophers i).right_chopstick).holder =
        some i) ↔ eatingP s i := by
      constructor
      · rintro ⟨hL, _⟩
        rw [hc.wire_left i] at hL
        exact holder_eating hc hiN hL
      · intro heat
        obtain ⟨h1, h2⟩ := hc.chop_eat i hiN heat
        rw [hc.wire_left i, hc.wire_right i, h1, h2]
        exact ⟨rfl, rfl⟩
    refine ⟨hiff, ?_⟩
    by_cases heat : eatingP s i
    · exact Or.inl (hiff.mpr heat)
    · refine Or.inr ⟨?_, ?_⟩
      · intro hL
        rw [hc.wire_left i] at hL
        exact heat (holder_eating hc hiN hL)
      · intro hR
        rw [hc.wire_right i] at hR
        exact heat (holder_eating hc (ring_succ_lt hiN) hR)
  · intro i i' j hiN hiN' hne heat heat' hj hj'
    rw [hc.wire_left i, hc.wire_right i] at hj
    rw [hc.wire_left i', hc.wire_right i'] at hj'
    rcases hj with h1 | h1 <;> rcases hj' with h2 | h2
    · exact hne (h1.symm.trans h2)
    · rw [h1] at h2
      rw [h2] at heat
      have hmx := hc.mutex i' hiN' heat' heat
      exact hne (h2.trans hmx)
    · rw [h2] at h1
      rw [h1] at heat'
      have hmx := hc.mutex i hiN heat heat'
      exact hne (h1.trans hmx).symm
    · rw [h1] at h2
      exact hne (ring_succ_inj hiN hiN' h2)

/-- C5: every dispatch returns exactly one follow-up event which is
pushed back, so at the head of every iteration of the run the queue
population equals the number of actors, and each actor has exactly one
resident event. -/
theorem c5_queue_population (expo : ℚ → Nat → ℚ) (mi T : ℚ)
    (lambdas : List ℚ) (k : Nat) (s : SimState)
    (h : loopIter expo k (initState mi T lambdas) = .ok s) :
    s.events.length = lambdas.length ∧ s.nphils = lambdas.length ∧
    (∀ i, i < lambdas.length →
      s.events.countP (fun e => e.philosopher == i) = 1) := by
  obtain ⟨hc, hn, _⟩ := loopIter_invCore k (invCore_init mi T lambdas) h
  obtain ⟨_, _, _, hlen, _, _⟩ := loopIter_trace k h
  have hn' : s.nphils = lambdas.length := hn
  refine ⟨?_, hn', ?_⟩
  · rw [hlen]
    simp [initState]
  · intro i hi
    have := hc.uniq i
    rw [hn'] at this
    rw [this, if_pos hi]

/-- C10: with at least one actor the pop-earliest operation never fails
anywhere in the run (the queue is never empty at a pop); with zero
actors and a positive horizon, the very first loop iteration pops from
an empty queue and the run fails with the empty-heap error instead of
returning normally. -/
theorem c10_pop_safety (expo : ℚ → Nat → ℚ) (mi T : ℚ)
    (lambdas : List ℚ) (fuel : Nat) :
    (lambdas ≠ [] → runSim expo mi T lambdas fuel ≠
      .error .emptyHeap) ∧
    (lambdas = [] → 0 < T → 1 ≤ fuel →
      runSim expo mi T lambdas fuel = .error .emptyHeap) := by
  constructor
  · intro hne hcontra
    rw [runSim] at hcontra
    have hn1 : 1 ≤ (initState mi T lambdas).nphils := by
      show 1 ≤ lambdas.length
      exact List.length_pos.mpr hne
    cases hsd : loopIter expo lambdas.length (initState mi T lambdas) with
    | error err =>
      obtain ⟨sd, hit⟩ := loopIter_no_error lambdas.length
        (invCore_init mi T lambdas) hn1
      rw [hit] at hsd
      exact absurd hsd (by simp)
    | ok sd =>
      rw [hsd] at hcontra
      simp only [Except.bind] at hcontra
      obtain ⟨hcd, hnd, _⟩ :=
        loopIter_invCore lambdas.length (invCore_init mi T lambdas) hsd
      exact runFuel_no_empty fuel hcd (by omega) hcontra
  · intro h0 hT hf
    subst h0
    cases fuel with
    | zero => omega
    | succ f =>
      show (loopIter expo ([] : List ℚ).length
        (initState mi T [])).bind (runFuel expo (f + 1)) =
        .error .emptyHeap
      rw [show loopIter expo ([] : List ℚ).length (initState mi T []) =
        .ok (initState mi T []) from rfl]
      rw [show (Except.ok (initState mi T [])).bind
        (runFuel expo (f + 1)) = runFuel expo (f + 1)
          (initState mi T []) from rfl]
      rw [runFuel, if_pos (show (initState mi T []).time <
        (initState mi T []).T from hT)]
      rw [show stepSim expo (initState mi T []) =
        Except.error RunError.emptyHeap from rfl]
      rfl

/-- C4: a completed run terminates exactly when the simulated clock
reaches or exceeds the horizon `T`: every loop-processed event except
the last has time `< T`; the final clock (the time of the last
processed event) satisfies `T ≤ clock`; the terminating event is fully
processed — the final request logs, failure counters and busy-time
accumulators account for the entire dispatch trace including it; if
the loop processed nothing then `T ≤ 0`; and all remaining queued
events are discarded (the final queue is empty).  The first
`lambdas.length` trace entries are the seeding calls; `trace.drop
lambdas.length` is the loop-processed sequence. -/
theorem c4_horizon_boundary (expo : ℚ → Nat → ℚ)
    (hpos : ∀ r k, 0 < expo r k) (mi T : ℚ) (lambdas : List ℚ)
    (fuel : Nat) (s : SimState)
    (h : runSim expo mi T lambdas fuel = .ok s) :
    s.events = [] ∧ T ≤ s.time ∧
    (∀ en ∈ (s.trace.drop lambdas.length).dropLast, en.time < T) ∧
    (∀ en, (s.trace.drop lambdas.length).getLast? = some en →
      en.time = s.time) ∧
    (s.trace.drop lambdas.length = [] → T ≤ 0) ∧
    (∀ i, ((s.philosophers i).requests).length = reqCount s.trace i ∧
      (s.philosophers i).failed_attempts = failCount s.trace i ∧
      (s.philosophers i).eating_time =
        ((intervalsOf s.trace i).map (fun p => p.2 - p.1)).sum) := by
  obtain ⟨sd, hsd, hcd, htd, hz, hdlen, hTd, hnd, hrf⟩ :=
    runSim_split hpos h
  obtain ⟨hT', hev', hTle, L, htr, hdl, hnil, hstop, hlast⟩ :=
    runFuel_spec fuel hrf
  have hdrop : s.trace.drop lambdas.length = L := by
    rw [htr, ← hdlen]
    exact List.drop_left sd.trace L
  have hTT : sd.T = T := hTd
  have hTs : T ≤ s.time := by
    rw [← hTT]
    exact hTle
  refine ⟨hev', hTs, ?_, ?_, ?_, ?_⟩
  · intro en hen
    rw [hdrop] at hen
    have h1 := hdl en hen
    rw [hTT] at h1
    exact h1
  · intro en hen
    rw [hdrop] at hen
    exact hlast en hen
  · intro hempty
    rw [hdrop] at hempty
    have hseq := hnil hempty
    have h2 : s.time = sd.time := by rw [hseq]
    rw [h2, hz] at hTs
    exact hTs
  · obtain ⟨s0, hc0, ht0, heq, _, _⟩ := runSim_inv hpos h
    intro i
    rw [heq]
    exact ⟨ht0.req_count i, ht0.fail_count i, ht0.busy_eq i⟩

/-- C7: in a completed run, the processed-event trace (seeding calls
followed by the loop pops) has non-decreasing times, and each actor's
request log is strictly increasing with length equal to the number of
REQUEST events dispatched to it. -/
theorem c7_event_order (expo : ℚ → Nat → ℚ)
    (hpos : ∀ r k, 0 < expo r k) (mi T : ℚ) (lambdas : List ℚ)
    (fuel : Nat) (s : SimState)
    (h : runSim expo mi T lambdas fuel = .ok s) :
    s.trace.Pairwise (fun a b => a.time ≤ b.time) ∧
    ∀ i, ((s.philosophers i).requests).Pairwise (· < ·) ∧
      ((s.philosophers i).requests).length = reqCount s.trace i := by
  obtain ⟨s0, hc0, ht0, heq, _, _⟩ := runSim_inv hpos h
  rw [heq]
  exact ⟨ht0.tr_mono, fun i => ⟨ht0.req_sorted i, ht0.req_count i⟩⟩

/-- C9 (amended): in a completed run the sum of the actors'
busy-time accumulators is at most the number of processed FINISH
events times the final simulated clock (not the horizon `T`: the
terminating event may add busy time accrued past `T`), and each
actor's busy intervals are pairwise non-overlapping. -/
theorem c9_conservation_amended (expo : ℚ → Nat → ℚ)
    (hpos : ∀ r k, 0 < expo r k) (mi T : ℚ) (lambdas : List ℚ)
    (fuel : Nat) (s : SimState)
    (h : runSim expo mi T lambdas fuel = .ok s) :
    busySum s ≤ (finCount s.trace : ℚ) * s.time ∧
    ∀ i, (intervalsOf s.trace i).Pairwise (fun a b => a.2 ≤ b.1) := by
  obtain ⟨s0, hc0, ht0, heq, _, _⟩ := runSim_inv hpos h
  rw [heq]
  constructor
  · show busySum s0 ≤ (finCount s0.trace : ℚ) * s0.time
    exact busySum_le_finCount ht0
  · intro i
    exact pairwise_of_chain_le (ht0.chainI i) (ht0.pair_le i)

/-- The concrete run refuting C9's `T`-bound: three actors, horizon
`T = 10`; actor 0 acquires at time 0 and its FINISH is drawn at time
100; the FINISH at 100 is the terminating event and is processed, so
the busy sum is 100 while `#FINISH × T = 10`. -/
def c9run : Except RunError SimState := runSim expoC9 1 10 [1, 1, 1] 1

section
attribute [local semireducible] Rat.add Rat.sub Rat.mul Rat.inv
set_option maxRecDepth 100000

/-- C9 counterexample: the claimed bound `sum of busy_time_accum ≤
(number of FINISH events) × T` is violated on a completed concrete
run: the run succeeds and `#FINISH × T < busySum`. -/
theorem c9_counterexample :
    c9run.toOption.isSome = true ∧
    (finCount (getOk c9run).trace : ℚ) * (getOk c9run).T <
      busySum (getOk c9run) := by
  constructor
  · decide
  · decide

/-- C8 (code-bug evidence): with valid `n`, `T`, `lambdas` but
`-mi 0.0`, the pre-simulation validation does not reject (in
`if args.mi and args.mi <= 0`, the float `0.0` is falsy, so the check
is skipped) although `0 ≤ 0`; a strictly negative `mi` is rejected as
the spec demands.  The accepted `mi = 0` run then crashes inside the
simulation (`random.expovariate(0)` raises `ZeroDivisionError`), not
before it. -/
theorem c8_mi_zero_not_rejected :
    (validate ⟨5, 500, some 0, some [1, 1, 1, 1, 1]⟩).2 = none ∧
    ((0 : ℚ) ≤ 0) ∧
    (validate ⟨5, 500, some (-1), some [1, 1, 1, 1, 1]⟩).2 =
      some VError.badMi := by
  refine ⟨by decide, le_refl 0, by decide⟩

/-- Closed witness for C3 at a reachable concrete state (4 steps from
the seeded 3-actor simulation): philosopher 0's both-or-neither
disjunction. -/
theorem c3_witness :
    (((getOk (loopIter expo1 4 (initState 1 2 [1, 1, 1]))).chopsticks
        ((getOk (loopIter expo1 4 (initState 1 2 [1, 1,
          1]))).philosophers 0).left_chopstick).holder = some 0 ∧
      ((getOk (loopIter expo1 4 (initState 1 2 [1, 1, 1]))).chopsticks
        ((getOk (loopIter expo1 4 (initState 1 2 [1, 1,
          1]))).philosophers 0).right_chopstick).holder = some 0) ∨
    (((getOk (loopIter expo1 4 (initState 1 2 [1, 1, 1]))).chopsticks
        ((getOk (loopIter expo1 4 (initState 1 2 [1, 1,
          1]))).philosophers 0).left_chopstick).holder ≠ some 0 ∧
      ((getOk (loopIter expo1 4 (initState 1 2 [1, 1, 1]))).chopsticks
        ((getOk (loopIter expo1 4 (initState 1 2 [1, 1,
          1]))).philosophers 0).right_chopstick).holder ≠ some 0) :=
  ((c3_resource_holding expo1 1 2 [1, 1, 1] 4
    (getOk (loopIter expo1 4 (initState 1 2 [1, 1, 1]))) rfl).2.1 0
    (by decide)).2

/-- Closed witness for C5 at a reachable concrete state. -/
theorem c5_witness :
    (getOk (loopIter expo1 4 (initState 1 2 [1, 1, 1]))).events.length
      = 3 :=
  (c5_queue_population expo1 1 2 [1, 1, 1] 4
    (getOk (loopIter expo1 4 (initState 1 2 [1, 1, 1]))) rfl).1

/-- Closed witness for C4 on a completed concrete run. -/
theorem c4_witness :
    (getOk (runSim expo1 1 2 [1, 1, 1] 10)).events = [] ∧
    (2 : ℚ) ≤ (getOk (runSim expo1 1 2 [1, 1, 1] 10)).time :=
  ⟨(c4_horizon_boundary expo1 (fun _ _ => one_pos) 1 2 [1, 1, 1] 10
      (getOk (runSim expo1 1 2 [1, 1, 1] 10)) rfl).1,
   (c4_horizon_boundary expo1 (fun _ _ => one_pos) 1 2 [1, 1, 1] 10
      (getOk (runSim expo1 1 2 [1, 1, 1] 10)) rfl).2.1⟩

/-- Closed witness for C7 on a completed concrete run. -/
theorem c7_witness :
    ((getOk (runSim expo1 1 2 [1, 1, 1] 10)).philosophers
      0).requests.length =
      reqCount (getOk (runSim expo1 1 2 [1, 1, 1] 10)).trace 0 :=
  ((c7_event_order expo1 (fun _ _ => one_pos) 1 2 [1, 1, 1] 10
    (getOk (runSim expo1 1 2 [1, 1, 1] 10)) rfl).2 0).2

/-- Closed witness for the amended C9 on a completed concrete run. -/
theorem c9_witness :
    busySum (getOk (runSim expo1 1 2 [1, 1, 1] 10)) ≤
      (finCount (getOk (runSim expo1 1 2 [1, 1, 1] 10)).trace : ℚ) *
        (getOk (runSim expo1 1 2 [1, 1, 1] 10)).time :=
  (c9_conservation_amended expo1 (fun _ _ => one_pos) 1 2 [1, 1, 1] 10
    (getOk (runSim expo1 1 2 [1, 1, 1] 10)) rfl).1

/-- Closed witness for C10: the zero-actor run with positive horizon
fails on its first pop. -/
theorem c10_witness :
    runSim expo1 1 2 ([] : List ℚ) 1 = .error .emptyHeap :=
  (c10_pop_safety expo1 1 2 [] 1).2 rfl (by norm_num) (le_refl 1)

end

end DiningPhilosophers
